import Mathlib

/-!
Verification of the multipart-write crate's bridge/engine state machines.

The asynchronous interfaces are shallowly embedded: `Poll` mirrors
`std::task::Poll`, a `MultipartWrite` implementation is a record of
state-transition functions (one per trait method), streams of parts are
Lean lists (a list source never suspends and yields its elements in
order), and each engine's `poll_next`/`poll` body is transcribed as a
fuel-indexed function on an explicit state struct.  Every writer
operation the engine issues is also recorded in an event trace so that
ordering invariants (readiness before send, flush before complete,
single-slot buffering) can be stated as trace properties.  Running out
of fuel returns `Poll.pending` with the current state, which matches the
code's re-entrancy: all resumable state lives in the struct, so
re-polling re-enters the loop at the top.
-/

namespace Multipart

/-- Mirror of `std::task::Poll`. -/
inductive Poll (α : Type u) where
  | pending
  | ready (a : α)
deriving Repr, DecidableEq

/-- Events recorded while an engine drives a writer and a source.  Each
writer-trait call and each source poll produces one event, tagged with
its outcome. -/
inductive Ev (π : Type u) where
  | readyOk
  | readyPending
  | readyErr
  | send (p : π)
  | flushOk
  | flushPending
  | flushErr
  | completeOk
  | completePending
  | completeErr
  | pullSome (p : π)
  | pullNone
deriving Repr, DecidableEq

/-- The `MultipartWrite` trait (src/lib.rs): four operations over a
writer state `σ`, with part type `π`, acknowledgement (`Ret`) type `ρ`,
output type `ω` and error type `ε`.  `poll_ready`/`poll_flush` may
suspend; `start_send` is synchronous. -/
structure MWrite (σ π ρ ω ε : Type) where
  poll_ready : σ → σ × Poll (Except ε Unit)
  start_send : σ → π → σ × Except ε ρ
  poll_flush : σ → σ × Poll (Except ε Unit)
  poll_complete : σ → σ × Poll (Except ε ω)

/-- The `FusedMultipartWrite` trait (src/lib.rs): adds `is_terminated`. -/
structure FusedMWrite (σ π ρ ω ε : Type) extends MWrite σ π ρ ω ε where
  is_terminated : σ → Bool

/-- The `TestWriter` of tests/main.rs: records `multiplier * part` into
`inner`, acknowledges with the part itself, and `poll_complete` takes
the recorded parts out (resetting `inner` to empty) while counting
completions. -/
structure TestWriterSt where
  inner : List Nat
  multiplier : Nat
  completed : Nat
  max_completed : Option Nat
deriving Repr, DecidableEq

/-- `MultipartWrite<usize>` impl of `TestWriter` (tests/main.rs). -/
def testWriter : MWrite TestWriterSt Nat Nat (List Nat) String where
  poll_ready s := (s, .ready (.ok ()))
  start_send s p := ({ s with inner := s.inner ++ [s.multiplier * p] }, .ok p)
  poll_flush s := (s, .ready (.ok ()))
  poll_complete s :=
    ({ s with inner := [], completed := s.completed + 1 }, .ready (.ok s.inner))

/-- `FusedMultipartWrite` impl of `TestWriter` (tests/main.rs):
terminated once `max_completed` is set and reached. -/
def testWriterF : FusedMWrite TestWriterSt Nat Nat (List Nat) String :=
  { testWriter with
    is_terminated := fun s => s.max_completed.elim false (fun n => n ≤ s.completed) }

/-- `TestWriter::default()` (tests/main.rs). -/
def testWriterDefault : TestWriterSt := ⟨[], 1, 0, none⟩

/-- State of the `Fuse` combinator (src/write/fuse.rs). -/
structure FuseSt (σ : Type) where
  writer : σ
  is_terminated : Bool
deriving Repr, DecidableEq

/-- The `Fuse` combinator's `MultipartWrite` impl (src/write/fuse.rs):
once the flag is set every operation is a successful no-op; the flag is
set when the predicate `f` holds of a completed output. -/
def fuseW (W : MWrite σ π ρ ω ε) (f : ω → Bool) :
    MWrite (FuseSt σ) π (Option ρ) (Option ω) ε where
  poll_ready s :=
    if s.is_terminated then (s, .ready (.ok ())) else
      match W.poll_ready s.writer with
      | (w, r) => ({ s with writer := w }, r)
  start_send s p :=
    if s.is_terminated then (s, .ok none) else
      match W.start_send s.writer p with
      | (w, .ok r) => ({ s with writer := w }, .ok (some r))
      | (w, .error e) => ({ s with writer := w }, .error e)
  poll_flush s :=
    if s.is_terminated then (s, .ready (.ok ())) else
      match W.poll_flush s.writer with
      | (w, r) => ({ s with writer := w }, r)
  poll_complete s :=
    if s.is_terminated then (s, .ready (.ok none)) else
      match W.poll_complete s.writer with
      | (w, .pending) => ({ s with writer := w }, .pending)
      | (w, .ready (.error e)) => ({ s with writer := w }, .ready (.error e))
      | (w, .ready (.ok res)) =>
          ({ s with writer := w, is_terminated := f res }, .ready (.ok (some res)))

/-- `FusedMultipartWrite` impl of `Fuse` (src/write/fuse.rs). -/
def fuseWF (W : MWrite σ π ρ ω ε) (f : ω → Bool) :
    FusedMWrite (FuseSt σ) π (Option ρ) (Option ω) ε :=
  { fuseW W f with is_terminated := fun s => s.is_terminated }

/-- The `Extend` writer (src/write/extend.rs) instantiated at
`T = Vec<A>` (whose `Extend` impl appends): always ready, `start_send`
appends to the inner collection, `poll_complete` takes the collection
out leaving the unset state, and operations on the unset state fail. -/
def extendW (π : Type) : MWrite (Option (List π)) π Unit (List π) String where
  poll_ready s := (s, .ready (.ok ()))
  start_send s p :=
    match s with
    | none => (none, .error "unset")
    | some l => (some (l ++ [p]), .ok ())
  poll_flush s := (s, .ready (.ok ()))
  poll_complete s :=
    match s with
    | none => (none, .ready (.error "unset"))
    | some l => (none, .ready (.ok l))

/-- State of `TrySend` (src/stream/try_send.rs): the optional source
(set to `none` once exhausted), the writer state, the single-slot
buffer, and the termination flag. -/
structure TrySendSt (σ π : Type) where
  stream : Option (List π)
  writer : σ
  buffered : Option π
  is_terminated : Bool
deriving Repr, DecidableEq

/-- `TrySend::poll_next` (src/stream/try_send.rs).  One call runs the
`loop`: if a part is buffered, poll readiness (flushing while pending)
and send it, yielding the acknowledgement; otherwise pull the source,
buffering the next item or, at exhaustion, flushing and ending the
stream.  Fuel bounds the loop; running out returns `pending` with the
current state (re-polling resumes at the loop head, as in the code). -/
def trySendPollNext (W : MWrite σ π ρ ω ε) :
    Nat → TrySendSt σ π → TrySendSt σ π × Poll (Option (Except ε ρ)) × List (Ev π)
  | 0, s => (s, .pending, [])
  | fuel + 1, s =>
    match s.buffered with
    | some it =>
      match W.poll_ready s.writer with
      | (w, .ready (.ok ())) =>
        match W.start_send w it with
        | (w', .ok ret) =>
            ({ s with writer := w', buffered := none },
              .ready (some (.ok ret)), [.readyOk, .send it])
        | (w', .error e) =>
            ({ s with writer := w', buffered := none },
              .ready (some (.error e)), [.readyOk, .send it])
      | (w, .ready (.error e)) =>
          ({ s with writer := w }, .ready (some (.error e)), [.readyErr])
      | (w, .pending) =>
        match W.poll_flush w with
        | (w', .pending) =>
            ({ s with writer := w' }, .pending, [.readyPending, .flushPending])
        | (w', .ready (.error e)) =>
            ({ s with writer := w' }, .ready (some (.error e)),
              [.readyPending, .flushErr])
        | (w', .ready (.ok ())) =>
          match trySendPollNext W fuel { s with writer := w' } with
          | (s', r, tr) => (s', r, .readyPending :: .flushOk :: tr)
    | none =>
      match s.stream with
      | none =>
        match W.poll_flush s.writer with
        | (w, .pending) => ({ s with writer := w }, .pending, [.flushPending])
        | (w, .ready (.error e)) =>
            ({ s with writer := w }, .ready (some (.error e)), [.flushErr])
        | (w, .ready (.ok ())) =>
            ({ s with writer := w, is_terminated := true }, .ready none, [.flushOk])
      | some [] =>
        match trySendPollNext W fuel { s with stream := none } with
        | (s', r, tr) => (s', r, .pullNone :: tr)
      | some (p :: rest) =>
        match trySendPollNext W fuel { s with stream := some rest, buffered := some p } with
        | (s', r, tr) => (s', r, .pullSome p :: tr)

/-- `TrySend::poll_complete` (src/stream/try_send.rs): send any buffered
part (after a fresh readiness check), flush to `Ready`, then delegate to
the writer's `poll_complete`.  Straight-line code, so no fuel. -/
def trySendPollComplete (W : MWrite σ π ρ ω ε) (s : TrySendSt σ π) :
    TrySendSt σ π × Poll (Except ε ω) × List (Ev π) :=
  match s.buffered with
  | some it =>
    match W.poll_ready s.writer with
    | (w, .pending) => ({ s with writer := w }, .pending, [.readyPending])
    | (w, .ready (.error e)) => ({ s with writer := w }, .ready (.error e), [.readyErr])
    | (w, .ready (.ok ())) =>
      match W.start_send w it with
      | (w', .error e) =>
          ({ s with writer := w', buffered := none }, .ready (.error e),
            [.readyOk, .send it])
      | (w', .ok _) =>
        match W.poll_flush w' with
        | (w'', .pending) =>
            ({ s with writer := w'', buffered := none }, .pending,
              [.readyOk, .send it, .flushPending])
        | (w'', .ready (.error e)) =>
            ({ s with writer := w'', buffered := none }, .ready (.error e),
              [.readyOk, .send it, .flushErr])
        | (w'', .ready (.ok ())) =>
          match W.poll_complete w'' with
          | (w3, .pending) =>
              ({ s with writer := w3, buffered := none }, .pending,
                [.readyOk, .send it, .flushOk, .completePending])
          | (w3, .ready (.ok out)) =>
              ({ s with writer := w3, buffered := none }, .ready (.ok out),
                [.readyOk, .send it, .flushOk, .completeOk])
          | (w3, .ready (.error e)) =>
              ({ s with writer := w3, buffered := none }, .ready (.error e),
                [.readyOk, .send it, .flushOk, .completeErr])
  | none =>
    match W.poll_flush s.writer with
    | (w, .pending) => ({ s with writer := w }, .pending, [.flushPending])
    | (w, .ready (.error e)) => ({ s with writer := w }, .ready (.error e), [.flushErr])
    | (w, .ready (.ok ())) =>
      match W.poll_complete w with
      | (w', .pending) => ({ s with writer := w' }, .pending, [.flushOk, .completePending])
      | (w', .ready (.ok out)) =>
          ({ s with writer := w' }, .ready (.ok out), [.flushOk, .completeOk])
      | (w', .ready (.error e)) =>
          ({ s with writer := w' }, .ready (.error e), [.flushOk, .completeErr])

/-- State of `CompleteWhen` (src/stream/complete_when.rs): a `TrySend`
plus the pending-completion flag. -/
structure CompleteWhenSt (σ π : Type) where
  inner : TrySendSt σ π
  should_complete : Bool
  is_terminated : Bool
deriving Repr, DecidableEq

/-- `CompleteWhen::poll_next` (src/stream/complete_when.rs): loop
driving the inner `TrySend`; when the policy `f` holds of an
acknowledgement, complete on the next iteration and yield the output.
Source exhaustion ends the stream with no trailing completion. -/
def completeWhenPollNext (W : MWrite σ π ρ ω ε) (f : ρ → Bool) :
    Nat → CompleteWhenSt σ π →
      CompleteWhenSt σ π × Poll (Option (Except ε ω)) × List (Ev π)
  | 0, s => (s, .pending, [])
  | fuel + 1, s =>
    if s.should_complete then
      match trySendPollComplete W s.inner with
      | (ts, .pending, tr) => ({ s with inner := ts }, .pending, tr)
      | (ts, .ready res, tr) =>
          ({ s with inner := ts, should_complete := false }, .ready (some res), tr)
    else
      match trySendPollNext W fuel s.inner with
      | (ts, .pending, tr) => ({ s with inner := ts }, .pending, tr)
      | (ts, .ready none, tr) =>
          ({ s with inner := ts, is_terminated := true }, .ready none, tr)
      | (ts, .ready (some (.error e)), tr) =>
          ({ s with inner := ts }, .ready (some (.error e)), tr)
      | (ts, .ready (some (.ok ret)), tr) =>
        match completeWhenPollNext W f fuel
            { s with inner := ts,
                     should_complete := if f ret then true else s.should_complete } with
        | (s', r, tr') => (s', r, tr ++ tr')

/-- State of the `CollectComplete` future (src/stream/collect_complete.rs). -/
structure CollectCompleteSt (σ π : Type) where
  writer : σ
  stream : Option (List π)
  buffered : Option π
  is_terminated : Bool
deriving Repr, DecidableEq

/-- `CollectComplete::poll` (src/stream/collect_complete.rs): drive the
whole source into the writer (single-slot buffering, flushing while not
ready), then flush and complete once at exhaustion.  The code's
fall-through from a successful send to the source poll is modelled as a
tail call re-entering the loop with the buffer emptied. -/
def collectCompletePoll (W : MWrite σ π ρ ω ε) :
    Nat → CollectCompleteSt σ π →
      CollectCompleteSt σ π × Poll (Except ε ω) × List (Ev π)
  | 0, s => (s, .pending, [])
  | fuel + 1, s =>
    match s.buffered with
    | some it =>
      match W.poll_ready s.writer with
      | (w, .ready (.ok ())) =>
        match W.start_send w it with
        | (w', .ok _) =>
          match collectCompletePoll W fuel { s with writer := w', buffered := none } with
          | (s', r, tr) => (s', r, .readyOk :: .send it :: tr)
        | (w', .error e) =>
            ({ s with writer := w', buffered := none }, .ready (.error e),
              [.readyOk, .send it])
      | (w, .ready (.error e)) => ({ s with writer := w }, .ready (.error e), [.readyErr])
      | (w, .pending) =>
        match W.poll_flush w with
        | (w', .pending) =>
            ({ s with writer := w' }, .pending, [.readyPending, .flushPending])
        | (w', .ready (.error e)) =>
            ({ s with writer := w' }, .ready (.error e), [.readyPending, .flushErr])
        | (w', .ready (.ok ())) =>
          match collectCompletePoll W fuel { s with writer := w' } with
          | (s', r, tr) => (s', r, .readyPending :: .flushOk :: tr)
    | none =>
      match s.stream with
      | none =>
        match W.poll_flush s.writer with
        | (w, .pending) => ({ s with writer := w }, .pending, [.flushPending])
        | (w, .ready (.error e)) =>
            ({ s with writer := w }, .ready (.error e), [.flushErr])
        | (w, .ready (.ok ())) =>
          match W.poll_complete w with
          | (w', .pending) =>
              ({ s with writer := w' }, .pending, [.flushOk, .completePending])
          | (w', .ready out) =>
              ({ s with writer := w', is_terminated := true }, .ready out,
                [.flushOk, match out with | .ok _ => .completeOk | .error _ => .completeErr])
      | some [] =>
        match collectCompletePoll W fuel { s with stream := none } with
        | (s', r, tr) => (s', r, .pullNone :: tr)
      | some (p :: rest) =>
        match collectCompletePoll W fuel
            { s with stream := some rest, buffered := some p } with
        | (s', r, tr) => (s', r, .pullSome p :: tr)

/-- State of the `Assemble` future (src/stream/assemble.rs). -/
structure AssembleSt (σ π : Type) where
  writer : σ
  stream : Option (List π)
  buffered : Option π
  is_terminated : Bool
deriving Repr, DecidableEq

/-- `Assemble::poll` (src/stream/assemble.rs): like `CollectComplete`
but at exhaustion it calls `poll_complete` directly, with no flush. -/
def assemblePoll (W : MWrite σ π ρ ω ε) :
    Nat → AssembleSt σ π → AssembleSt σ π × Poll (Except ε ω) × List (Ev π)
  | 0, s => (s, .pending, [])
  | fuel + 1, s =>
    match s.buffered with
    | some it =>
      match W.poll_ready s.writer with
      | (w, .ready (.ok ())) =>
        match W.start_send w it with
        | (w', .ok _) =>
          match assemblePoll W fuel { s with writer := w', buffered := none } with
          | (s', r, tr) => (s', r, .readyOk :: .send it :: tr)
        | (w', .error e) =>
            ({ s with writer := w', buffered := none }, .ready (.error e),
              [.readyOk, .send it])
      | (w, .ready (.error e)) => ({ s with writer := w }, .ready (.error e), [.readyErr])
      | (w, .pending) =>
        match W.poll_flush w with
        | (w', .pending) =>
            ({ s with writer := w' }, .pending, [.readyPending, .flushPending])
        | (w', .ready (.error e)) =>
            ({ s with writer := w' }, .ready (.error e), [.readyPending, .flushErr])
        | (w', .ready (.ok ())) =>
          match assemblePoll W fuel { s with writer := w' } with
          | (s', r, tr) => (s', r, .readyPending :: .flushOk :: tr)
    | none =>
      match s.stream with
      | none =>
        match W.poll_complete s.writer with
        | (w, .pending) => ({ s with writer := w }, .pending, [.completePending])
        | (w, .ready out) =>
            ({ s with writer := w, is_terminated := true }, .ready out,
              [match out with | .ok _ => .completeOk | .error _ => .completeErr])
      | some [] =>
        match assemblePoll W fuel { s with stream := none } with
        | (s', r, tr) => (s', r, .pullNone :: tr)
      | some (p :: rest) =>
        match assemblePoll W fuel { s with stream := some rest, buffered := some p } with
        | (s', r, tr) => (s', r, .pullSome p :: tr)

/-- The `State` enum of `Assembled` (src/stream/assembled.rs). -/
inductive AsmState where
  | pollNext
  | pollComplete (last : Bool)
  | terminated
deriving Repr, DecidableEq

/-- State of the `Assembled` stream (src/stream/assembled.rs): the
writer here has output type `Option τ` (`None` from `poll_complete` ends
the stream), `empty` tracks whether anything was sent since the last
cut, and the policy is evaluated on each acknowledgement. -/
structure AssembledSt (σ π : Type) where
  stream : List π
  writer : σ
  buffered : Option π
  state : AsmState
  empty : Bool
  is_terminated : Bool
deriving Repr, DecidableEq

/-- `Assembled::poll_next` (src/stream/assembled.rs).  The code's
fall-through from the buffered-send block to the state match is
modelled as a tail call re-entering the loop with the buffer emptied
and the next state recorded. -/
def assembledPollNext (W : MWrite σ π ρ (Option τ) ε) (f : ρ → Bool) :
    Nat → AssembledSt σ π →
      AssembledSt σ π × Poll (Option (Except ε τ)) × List (Ev π)
  | 0, s => (s, .pending, [])
  | fuel + 1, s =>
    match s.buffered with
    | some it =>
      match W.poll_ready s.writer with
      | (w, .ready (.ok ())) =>
        match W.start_send w it with
        | (w', .ok ret) =>
          match assembledPollNext W f fuel
              { s with writer := w', buffered := none, empty := false,
                       state := if f ret then .pollComplete false else .pollNext } with
          | (s', r, tr) => (s', r, .readyOk :: .send it :: tr)
        | (w', .error e) =>
            ({ s with writer := w', buffered := none }, .ready (some (.error e)),
              [.readyOk, .send it])
      | (w, .ready (.error e)) =>
          ({ s with writer := w }, .ready (some (.error e)), [.readyErr])
      | (w, .pending) =>
        match W.poll_flush w with
        | (w', .pending) =>
            ({ s with writer := w' }, .pending, [.readyPending, .flushPending])
        | (w', .ready (.error e)) =>
            ({ s with writer := w' }, .ready (some (.error e)),
              [.readyPending, .flushErr])
        | (w', .ready (.ok ())) =>
          match assembledPollNext W f fuel { s with writer := w' } with
          | (s', r, tr) => (s', r, .readyPending :: .flushOk :: tr)
    | none =>
      match s.state with
      | .pollNext =>
        match s.stream with
        | p :: rest =>
          match assembledPollNext W f fuel
              { s with stream := rest, buffered := some p } with
          | (s', r, tr) => (s', r, .pullSome p :: tr)
        | [] =>
          if s.empty then
            ({ s with is_terminated := true }, .ready none, [.pullNone])
          else
            match assembledPollNext W f fuel { s with state := .pollComplete true } with
            | (s', r, tr) => (s', r, .pullNone :: tr)
      | .pollComplete last =>
        match W.poll_complete s.writer with
        | (w, .pending) => ({ s with writer := w }, .pending, [.completePending])
        | (w, .ready (.error e)) =>
            ({ s with writer := w }, .ready (some (.error e)), [.completeErr])
        | (w, .ready (.ok none)) =>
            ({ s with writer := w, is_terminated := true }, .ready none, [.completeOk])
        | (w, .ready (.ok (some out))) =>
          if last then
            ({ s with writer := w, state := .terminated }, .ready (some (.ok out)),
              [.completeOk])
          else
            ({ s with writer := w, state := .pollNext, empty := true },
              .ready (some (.ok out)), [.completeOk])
      | .terminated =>
          ({ s with is_terminated := true }, .ready none, [])

/-- The `State` enum of `WriteUntil` (src/stream/write_until.rs). -/
inductive WuState where
  | pollComplete
  | finalPollComplete
  | pollNext
  | terminating
  | terminated
deriving Repr, DecidableEq

/-- `State::should_complete` (src/stream/write_until.rs). -/
def WuState.should_complete : WuState → Bool
  | .pollComplete => true
  | .finalPollComplete => true
  | _ => false

/-- `State::is_last_complete` (src/stream/write_until.rs). -/
def WuState.is_last_complete : WuState → Bool
  | .finalPollComplete => true
  | _ => false

/-- State of the `WriteUntil` stream (src/stream/write_until.rs). -/
structure WriteUntilSt (σ π : Type) where
  inner : TrySendSt σ π
  state : WuState
  is_empty : Bool
deriving Repr, DecidableEq

/-- `WriteUntil::poll_next` (src/stream/write_until.rs): drives the
inner `TrySend`, completing (flush then complete, via
`TrySend::poll_complete`) when the policy fires and once more at
exhaustion unless nothing was written since the last cut. -/
def writeUntilPollNext (W : MWrite σ π ρ ω ε) (f : ρ → Bool) :
    Nat → WriteUntilSt σ π →
      WriteUntilSt σ π × Poll (Option (Except ε ω)) × List (Ev π)
  | 0, s => (s, .pending, [])
  | fuel + 1, s =>
    if s.state = .terminating then
      ({ s with state := .terminated }, .ready none, [])
    else if s.state.should_complete then
      match trySendPollComplete W s.inner with
      | (ts, .pending, tr) => ({ s with inner := ts }, .pending, tr)
      | (ts, .ready res, tr) =>
          ({ s with inner := ts,
                    state := if s.state.is_last_complete then .terminating else .pollNext,
                    is_empty := true }, .ready (some res), tr)
    else
      match trySendPollNext W fuel s.inner with
      | (ts, .pending, tr) => ({ s with inner := ts }, .pending, tr)
      | (ts, .ready (some (.error e)), tr) =>
          ({ s with inner := ts }, .ready (some (.error e)), tr)
      | (ts, .ready none, tr) =>
        if s.is_empty then
          ({ s with inner := ts, state := .terminated }, .ready none, tr)
        else
          match writeUntilPollNext W f fuel
              { s with inner := ts, state := .finalPollComplete } with
          | (s', r, tr') => (s', r, tr ++ tr')
      | (ts, .ready (some (.ok ret)), tr) =>
        match writeUntilPollNext W f fuel
            { s with inner := ts,
                     state := if f ret then .pollComplete else s.state,
                     is_empty := false } with
        | (s', r, tr') => (s', r, tr ++ tr')

/-- The `State` enum of `FeedMultipartWrite`
(src/stream/feed_multipart_write.rs). -/
inductive FeedState where
  | write
  | next
  | complete
  | shutdown
deriving Repr, DecidableEq

/-- The `WriteBuf` helper of `FeedMultipartWrite`
(src/stream/feed_multipart_write.rs): the inner writer, the single-slot
buffer and the emptiness flag (note: it starts out `false`). -/
structure WriteBufSt (σ π : Type) where
  inner : σ
  buffered : Option π
  is_empty : Bool
deriving Repr, DecidableEq

/-- `WriteBuf::is_empty` (src/stream/feed_multipart_write.rs). -/
def WriteBufSt.isEmptyFn (wb : WriteBufSt σ π) : Bool :=
  wb.is_empty && wb.buffered.isNone

/-- `WriteBuf::poll_inner_send` (src/stream/feed_multipart_write.rs):
`Ok(None)` when nothing is buffered, otherwise send after a fresh
readiness check (flushing while pending) and return the policy's
verdict on the acknowledgement. -/
def wbPollInnerSend (W : MWrite σ π ρ ω ε) (f : ρ → Bool) (wb : WriteBufSt σ π) :
    WriteBufSt σ π × Poll (Except ε (Option Bool)) × List (Ev π) :=
  match wb.buffered with
  | none => (wb, .ready (.ok none), [])
  | some it =>
    match W.poll_ready wb.inner with
    | (w, .pending) =>
      match W.poll_flush w with
      | (w', .pending) => ({ wb with inner := w' }, .pending, [.readyPending, .flushPending])
      | (w', .ready (.ok ())) => ({ wb with inner := w' }, .pending, [.readyPending, .flushOk])
      | (w', .ready (.error e)) =>
          ({ wb with inner := w' }, .ready (.error e), [.readyPending, .flushErr])
    | (w, .ready (.error e)) => ({ wb with inner := w }, .ready (.error e), [.readyErr])
    | (w, .ready (.ok ())) =>
      match W.start_send w it with
      | (w', .error e) =>
          ({ wb with inner := w', buffered := none }, .ready (.error e),
            [.readyOk, .send it])
      | (w', .ok ret) =>
          ({ wb with inner := w', buffered := none, is_empty := false },
            .ready (.ok (some (f ret))), [.readyOk, .send it])

/-- `WriteBuf::poll_inner_complete` (src/stream/feed_multipart_write.rs). -/
def wbPollInnerComplete (W : MWrite σ π ρ ω ε) (wb : WriteBufSt σ π) :
    WriteBufSt σ π × Poll (Except ε ω) × List (Ev π) :=
  match W.poll_complete wb.inner with
  | (w, .pending) => ({ wb with inner := w }, .pending, [.completePending])
  | (w, .ready (.error e)) => ({ wb with inner := w }, .ready (.error e), [.completeErr])
  | (w, .ready (.ok out)) =>
      ({ wb with inner := w, is_empty := true }, .ready (.ok out), [.completeOk])

/-- State of `FeedMultipartWrite` (src/stream/feed_multipart_write.rs). -/
structure FeedSt (σ π : Type) where
  stream : List π
  writer : WriteBufSt σ π
  state : FeedState
  stream_terminated : Bool
  is_terminated : Bool
deriving Repr, DecidableEq

/-- `FeedMultipartWrite::poll_next` (src/stream/feed_multipart_write.rs):
before every transition the fused writer's `is_terminated` is checked
and, when set, the stream ends immediately with no further writer or
source operation. -/
def feedPollNext (W : FusedMWrite σ π ρ ω ε) (f : ρ → Bool) :
    Nat → FeedSt σ π → FeedSt σ π × Poll (Option (Except ε ω)) × List (Ev π)
  | 0, s => (s, .pending, [])
  | fuel + 1, s =>
    if W.is_terminated s.writer.inner then
      ({ s with is_terminated := true }, .ready none, [])
    else
      match s.state with
      | .write =>
        match wbPollInnerSend W.toMWrite f s.writer with
        | (wb, .pending, tr) => ({ s with writer := wb }, .pending, tr)
        | (wb, .ready (.ok none), tr) =>
          match feedPollNext W f fuel { s with writer := wb, state := .next } with
          | (s', r, tr') => (s', r, tr ++ tr')
        | (wb, .ready (.ok (some true)), tr) =>
          match feedPollNext W f fuel { s with writer := wb, state := .complete } with
          | (s', r, tr') => (s', r, tr ++ tr')
        | (wb, .ready (.ok (some false)), tr) =>
          match feedPollNext W f fuel { s with writer := wb, state := .write } with
          | (s', r, tr') => (s', r, tr ++ tr')
        | (wb, .ready (.error e), tr) =>
            ({ s with writer := wb, state := .write }, .ready (some (.error e)), tr)
      | .next =>
        match s.stream with
        | p :: rest =>
          match feedPollNext W f fuel
              { s with stream := rest,
                       writer := { s.writer with buffered := some p },
                       state := .write } with
          | (s', r, tr') => (s', r, .pullSome p :: tr')
        | [] =>
          if s.writer.isEmptyFn then
            ({ s with stream_terminated := true }, .ready none, [.pullNone])
          else
            match feedPollNext W f fuel
                { s with stream_terminated := true, state := .complete } with
            | (s', r, tr') => (s', r, .pullNone :: tr')
      | .complete =>
        match wbPollInnerComplete W.toMWrite s.writer with
        | (wb, .pending, tr) => ({ s with writer := wb }, .pending, tr)
        | (wb, .ready (.error e), tr) =>
            ({ s with writer := wb }, .ready (some (.error e)), tr)
        | (wb, .ready (.ok out), tr) =>
            ({ s with writer := wb,
                      state := if s.stream_terminated then .shutdown else .write },
              .ready (some (.ok out)), tr)
      | .shutdown => ({ s with is_terminated := true }, .ready none, [])

/-- Repeatedly poll a stream-like engine, collecting yielded items and
the concatenated event trace; the final flag is `true` when the stream
reported its end (`ready none`) within the given number of polls. -/
def driveStream (poll : St → St × Poll (Option α) × List (Ev π)) :
    Nat → St → List α × List (Ev π) × Bool
  | 0, _ => ([], [], false)
  | fuel + 1, s =>
    match poll s with
    | (_, .ready none, tr) => ([], tr, true)
    | (s', .ready (some a), tr) =>
      match driveStream poll fuel s' with
      | (items, tr', fin) => (a :: items, tr ++ tr', fin)
    | (s', .pending, tr) =>
      match driveStream poll fuel s' with
      | (items, tr', fin) => (items, tr ++ tr', fin)

/-- `MultiIoWriter` (src/io/multi_io_writer.rs) instantiated at
`W = Vec<u8>`: `start_send` appends the byte slice and returns the
number of bytes written, `poll_complete` is `mem::take`, leaving the
default (empty) collection behind. -/
def multiIoWriter : MWrite (List Nat) (List Nat) Nat (List Nat) String where
  poll_ready s := (s, .ready (.ok ()))
  start_send s p := (s ++ p, .ok p.length)
  poll_flush s := (s, .ready (.ok ()))
  poll_complete s := ([], .ready (.ok s))

/-- `TrySend::new` (src/stream/try_send.rs) over a list source. -/
def trySendInit (src : List π) (w : σ) : TrySendSt σ π :=
  ⟨some src, w, none, false⟩

/-- `CompleteWhen::new` (src/stream/complete_when.rs). -/
def completeWhenInit (src : List π) (w : σ) : CompleteWhenSt σ π :=
  ⟨trySendInit src w, false, false⟩

/-- `CollectComplete::new` (src/stream/collect_complete.rs). -/
def collectCompleteInit (src : List π) (w : σ) : CollectCompleteSt σ π :=
  ⟨w, some src, none, false⟩

/-- `Assemble::new` (src/stream/assemble.rs). -/
def assembleInit (src : List π) (w : σ) : AssembleSt σ π :=
  ⟨w, some src, none, false⟩

/-- `Assembled::new` (src/stream/assembled.rs): starts in `PollNext`
with the `empty` flag set. -/
def assembledInit (src : List π) (w : σ) : AssembledSt σ π :=
  ⟨src, w, none, .pollNext, true, false⟩

/-- `WriteUntil::new` (src/stream/write_until.rs). -/
def writeUntilInit (src : List π) (w : σ) : WriteUntilSt σ π :=
  ⟨trySendInit src w, .pollNext, true⟩

/-- `FeedMultipartWrite::new` (src/stream/feed_multipart_write.rs):
starts in `Write` with an empty buffer and `is_empty` cleared. -/
def feedInit (src : List π) (w : σ) : FeedSt σ π :=
  ⟨src, ⟨w, none, false⟩, .write, false, false⟩

/-- The verbatim-recording writer used by the run theorems: a fresh
`TestWriter` with multiplier 1 (tests/main.rs `TestWriter::default`),
wrapped in `Fuse` with a never-true predicate so that its output type is
`Option (List Nat)` as `Assembled` requires. -/
def recFused : MWrite (FuseSt TestWriterSt) Nat (Option Nat) (Option (List Nat)) String :=
  fuseW testWriter (fun _ => false)

/-- Drive `Assembled` over the fused recording writer to the end of the
stream, with fuel amply covering the source length. -/
def assembledRun (src : List Nat) (pol : Option Nat → Bool) :
    List (Except String (List Nat)) × List (Ev Nat) × Bool :=
  driveStream (fun s => assembledPollNext recFused pol (2 * src.length + 3) s)
    (src.length + 2) (assembledInit src ⟨testWriterDefault, false⟩)

/-- Drive `CompleteWhen` over the recording writer to the end of the
stream. -/
def completeWhenRun (src : List Nat) (pol : Nat → Bool) :
    List (Except String (List Nat)) × List (Ev Nat) × Bool :=
  driveStream (fun s => completeWhenPollNext testWriter pol (2 * src.length + 6) s)
    (src.length + 2) (completeWhenInit src testWriterDefault)

/-- Drive `WriteUntil` over the recording writer to the end of the
stream. -/
def writeUntilRun (src : List Nat) (pol : Nat → Bool) :
    List (Except String (List Nat)) × List (Ev Nat) × Bool :=
  driveStream (fun s => writeUntilPollNext testWriter pol (2 * src.length + 6) s)
    (src.length + 3) (writeUntilInit src testWriterDefault)

/-- Resolve the `CollectComplete` future over the recording writer. -/
def collectCompleteRun (src : List Nat) :
    CollectCompleteSt TestWriterSt Nat × Poll (Except String (List Nat)) × List (Ev Nat) :=
  collectCompletePoll testWriter (2 * src.length + 4) (collectCompleteInit src testWriterDefault)

/-- Resolve the `Assemble` future over the recording writer. -/
def assembleRun (src : List Nat) :
    AssembleSt TestWriterSt Nat × Poll (Except String (List Nat)) × List (Ev Nat) :=
  assemblePoll testWriter (2 * src.length + 4) (assembleInit src testWriterDefault)

/-- The list `[a, a+1, ..., a+n-1]`. -/
def countUp : Nat → Nat → List Nat
  | _, 0 => []
  | a, n + 1 => a :: countUp (a + 1) n

/-- Specification of the session decomposition cut by a policy: `acc`
holds the parts of the open session; a part on which the policy fires
closes the session.  A non-empty trailing session is emitted once; an
empty one is not. -/
def sessions (pol : π → Bool) : List π → List π → List (List π)
  | acc, [] => if acc.isEmpty then [] else [acc]
  | acc, p :: t => if pol p then (acc ++ [p]) :: sessions pol [] t else sessions pol (acc ++ [p]) t

/-- Session decomposition as `CompleteWhen` realizes it: only sessions
closed by a policy fire are emitted; the trailing session is dropped. -/
def cwSessions (pol : π → Bool) : List π → List π → List (List π)
  | _, [] => []
  | acc, p :: t => if pol p then (acc ++ [p]) :: cwSessions pol [] t else cwSessions pol (acc ++ [p]) t

/-- Split a list at the first element on which the policy fires,
returning the segment up to and including it and the remainder. -/
def splitFire (pol : π → Bool) : List π → Option (List π × List π)
  | [] => none
  | p :: t =>
    if pol p then some ([p], t)
    else
      match splitFire pol t with
      | none => none
      | some (a, b) => some (p :: a, b)

/-- Trace of pulling and sending each part of a list in order. -/
def pullSendTrace : List π → List (Ev π)
  | [] => []
  | p :: l => .pullSome p :: .readyOk :: .send p :: pullSendTrace l

/-- The parts carried by `send` events, in order. -/
def sendsOf : List (Ev π) → List π
  | [] => []
  | .send p :: t => p :: sendsOf t
  | _ :: t => sendsOf t

/-- How many `poll_complete` calls a trace records. -/
def completesOf : List (Ev π) → Nat
  | [] => 0
  | .completeOk :: t => completesOf t + 1
  | .completePending :: t => completesOf t + 1
  | .completeErr :: t => completesOf t + 1
  | _ :: t => completesOf t

/-- Single-buffer discipline checker.  Scans a trace with the current
buffer occupancy `full` and a flag `armed` that is set only by an
immediately preceding successful readiness check: a part may be pulled
only into an empty buffer, and `start_send` may be issued only for the
buffered part and only immediately after `poll_ready` returned
`Ready(Ok)`.  Returns the final occupancy, or `none` on a violation. -/
def scanBuf (full armed : Bool) : List (Ev π) → Option Bool
  | [] => some full
  | .readyOk :: t => scanBuf full true t
  | .send _ :: t => if armed && full then scanBuf false false t else none
  | .pullSome _ :: t => if full then none else scanBuf true false t
  | _ :: t => scanBuf full false t

/-- Flush-before-complete checker.  `full` tracks buffer occupancy and
`flushed` whether `poll_flush` has returned `Ready(Ok)` since the last
send: every `poll_complete` call must find the buffer empty and the
writer flushed.  Returns the final `(full, flushed)` state, or `none`
on a violation. -/
def scanFlushComplete (full flushed : Bool) : List (Ev π) → Option (Bool × Bool)
  | [] => some (full, flushed)
  | .send _ :: t => scanFlushComplete false false t
  | .pullSome _ :: t => scanFlushComplete true flushed t
  | .flushOk :: t => scanFlushComplete full true t
  | .flushPending :: t => scanFlushComplete full false t
  | .flushErr :: t => scanFlushComplete full false t
  | .completeOk :: t => if flushed && !full then scanFlushComplete full false t else none
  | .completePending :: t => if flushed && !full then scanFlushComplete full false t else none
  | .completeErr :: t => if flushed && !full then scanFlushComplete full false t else none
  | _ :: t => scanFlushComplete full flushed t

/-- Empty-buffer-at-complete checker: like `scanFlushComplete` but
requiring only that the buffer is empty when `poll_complete` is
called. -/
def scanEmptyComplete (full : Bool) : List (Ev π) → Option Bool
  | [] => some full
  | .send _ :: t => scanEmptyComplete false t
  | .pullSome _ :: t => scanEmptyComplete true t
  | .completeOk :: t => if full then none else scanEmptyComplete full t
  | .completePending :: t => if full then none else scanEmptyComplete full t
  | .completeErr :: t => if full then none else scanEmptyComplete full t
  | _ :: t => scanEmptyComplete full t

theorem pullSendTrace_nil : pullSendTrace ([] : List π) = [] := rfl

theorem pullSendTrace_cons (p : π) (l : List π) :
    pullSendTrace (p :: l) = .pullSome p :: .readyOk :: .send p :: pullSendTrace l := rfl

theorem sendsOf_append (a b : List (Ev π)) : sendsOf (a ++ b) = sendsOf a ++ sendsOf b := by
  induction a with
  | nil => rfl
  | cons e t ih => cases e <;> simp [sendsOf, ih]

theorem sendsOf_pullSendTrace (l : List π) : sendsOf (pullSendTrace l) = l := by
  induction l with
  | nil => rfl
  | cons p t ih => simp [pullSendTrace_cons, sendsOf, ih]

theorem completesOf_append (a b : List (Ev π)) :
    completesOf (a ++ b) = completesOf a + completesOf b := by
  induction a with
  | nil => simp [completesOf]
  | cons e t ih => cases e <;> simp [completesOf, ih] <;> omega

theorem completesOf_pullSendTrace (l : List π) : completesOf (pullSendTrace l) = 0 := by
  induction l with
  | nil => rfl
  | cons p t ih => simp [pullSendTrace_cons, completesOf, ih]

theorem splitFire_append (pol : π → Bool) {l seg rest : List π}
    (h : splitFire pol l = some (seg, rest)) : l = seg ++ rest := by
  induction l generalizing seg rest with
  | nil => simp [splitFire] at h
  | cons p t ih =>
    by_cases hp : pol p
    · rw [splitFire, if_pos hp] at h
      obtain ⟨rfl, rfl⟩ : [p] = seg ∧ t = rest := by
        constructor <;> [exact congrArg Prod.fst (Option.some.inj h);
          exact congrArg Prod.snd (Option.some.inj h)]
      rfl
    · rw [splitFire, if_neg hp] at h
      cases hs : splitFire pol t with
      | none => rw [hs] at h; exact absurd h (by simp)
      | some pr =>
        obtain ⟨a, b⟩ := pr
        rw [hs] at h
        obtain ⟨rfl, rfl⟩ : p :: a = seg ∧ b = rest := by
          constructor <;> [exact congrArg Prod.fst (Option.some.inj h);
            exact congrArg Prod.snd (Option.some.inj h)]
        simpa using congrArg (p :: ·) (ih hs)

theorem splitFire_ne_nil (pol : π → Bool) {l seg rest : List π}
    (h : splitFire pol l = some (seg, rest)) : seg ≠ [] := by
  cases l with
  | nil => simp [splitFire] at h
  | cons p t =>
    by_cases hp : pol p
    · rw [splitFire, if_pos hp] at h
      have : [p] = seg := congrArg Prod.fst (Option.some.inj h)
      simp [← this]
    · rw [splitFire, if_neg hp] at h
      cases hs : splitFire pol t with
      | none => rw [hs] at h; exact absurd h (by simp)
      | some pr =>
        obtain ⟨a, b⟩ := pr
        rw [hs] at h
        have : p :: a = seg := congrArg Prod.fst (Option.some.inj h)
        simp [← this]

theorem sessions_fire (pol : π → Bool) {l seg rest : List π} (acc : List π)
    (h : splitFire pol l = some (seg, rest)) :
    sessions pol acc l = (acc ++ seg) :: sessions pol [] rest := by
  induction l generalizing seg rest acc with
  | nil => simp [splitFire] at h
  | cons p t ih =>
    by_cases hp : pol p
    · rw [splitFire, if_pos hp] at h
      obtain ⟨rfl, rfl⟩ : [p] = seg ∧ t = rest := by
        constructor <;> [exact congrArg Prod.fst (Option.some.inj h);
          exact congrArg Prod.snd (Option.some.inj h)]
      simp [sessions, hp]
    · rw [splitFire, if_neg hp] at h
      cases hs : splitFire pol t with
      | none => rw [hs] at h; exact absurd h (by simp)
      | some pr =>
        obtain ⟨a, b⟩ := pr
        rw [hs] at h
        obtain ⟨rfl, rfl⟩ : p :: a = seg ∧ b = rest := by
          constructor <;> [exact congrArg Prod.fst (Option.some.inj h);
            exact congrArg Prod.snd (Option.some.inj h)]
        rw [sessions, if_neg (by simp [hp]), ih (acc ++ [p]) hs]
        simp

theorem sessions_nofire (pol : π → Bool) {l : List π} (acc : List π)
    (h : splitFire pol l = none) :
    sessions pol acc l = if (acc ++ l).isEmpty then [] else [acc ++ l] := by
  induction l generalizing acc with
  | nil => simp only [sessions, List.append_nil]
  | cons p t ih =>
    by_cases hp : pol p
    · rw [splitFire, if_pos hp] at h; exact absurd h (by simp)
    · rw [splitFire, if_neg hp] at h
      cases hs : splitFire pol t with
      | some pr => rw [hs] at h; obtain ⟨a, b⟩ := pr; exact absurd h (by simp)
      | none =>
        rw [sessions, if_neg (by simp [hp]), ih (acc ++ [p]) hs]
        simp

theorem cwSessions_fire (pol : π → Bool) {l seg rest : List π} (acc : List π)
    (h : splitFire pol l = some (seg, rest)) :
    cwSessions pol acc l = (acc ++ seg) :: cwSessions pol [] rest := by
  induction l generalizing seg rest acc with
  | nil => simp [splitFire] at h
  | cons p t ih =>
    by_cases hp : pol p
    · rw [splitFire, if_pos hp] at h
      obtain ⟨rfl, rfl⟩ : [p] = seg ∧ t = rest := by
        constructor <;> [exact congrArg Prod.fst (Option.some.inj h);
          exact congrArg Prod.snd (Option.some.inj h)]
      simp [cwSessions, hp]
    · rw [splitFire, if_neg hp] at h
      cases hs : splitFire pol t with
      | none => rw [hs] at h; exact absurd h (by simp)
      | some pr =>
        obtain ⟨a, b⟩ := pr
        rw [hs] at h
        obtain ⟨rfl, rfl⟩ : p :: a = seg ∧ b = rest := by
          constructor <;> [exact congrArg Prod.fst (Option.some.inj h);
            exact congrArg Prod.snd (Option.some.inj h)]
        rw [cwSessions, if_neg (by simp [hp]), ih (acc ++ [p]) hs]
        simp

theorem cwSessions_nofire (pol : π → Bool) {l : List π} (acc : List π)
    (h : splitFire pol l = none) : cwSessions pol acc l = [] := by
  induction l generalizing acc with
  | nil => simp [cwSessions]
  | cons p t ih =>
    by_cases hp : pol p
    · rw [splitFire, if_pos hp] at h; exact absurd h (by simp)
    · rw [splitFire, if_neg hp] at h
      cases hs : splitFire pol t with
      | some pr => rw [hs] at h; obtain ⟨a, b⟩ := pr; exact absurd h (by simp)
      | none => rw [cwSessions, if_neg (by simp [hp]), ih (acc ++ [p]) hs]

theorem sessions_flatten (pol : π → Bool) (acc l : List π) :
    (sessions pol acc l).flatten = acc ++ l := by
  induction l generalizing acc with
  | nil =>
    by_cases h : acc.isEmpty
    · simp [sessions, h, List.isEmpty_iff.mp h]
    · simp [sessions, h]
  | cons p t ih =>
    by_cases hp : pol p
    · simp [sessions, hp, ih]
    · rw [sessions, if_neg (by simp [hp]), ih (acc ++ [p])]
      simp

theorem recFused_ready (s : FuseSt TestWriterSt) :
    recFused.poll_ready s = (s, .ready (.ok ())) := by
  cases s with
  | mk w b => cases b <;> rfl

theorem recFused_flush (s : FuseSt TestWriterSt) :
    recFused.poll_flush s = (s, .ready (.ok ())) := by
  cases s with
  | mk w b => cases b <;> rfl

theorem recFused_send (acc : List Nat) (c p : Nat) :
    recFused.start_send ⟨⟨acc, 1, c, none⟩, false⟩ p =
      (⟨⟨acc ++ [p], 1, c, none⟩, false⟩, .ok (some p)) := by
  simp [recFused, fuseW, testWriter]

theorem recFused_complete (acc : List Nat) (c : Nat) :
    recFused.poll_complete ⟨⟨acc, 1, c, none⟩, false⟩ =
      (⟨⟨[], 1, c + 1, none⟩, false⟩, .ready (.ok (some acc))) := by
  simp [recFused, fuseW, testWriter]

theorem assembled_stop (pol : Option Nat → Bool) (w : FuseSt TestWriterSt) (b : Bool)
    (fuel : Nat) :
    assembledPollNext recFused pol (fuel + 1) ⟨[], w, none, .pollNext, true, b⟩ =
      (⟨[], w, none, .pollNext, true, true⟩, .ready none, [.pullNone]) := by
  simp [assembledPollNext]

theorem assembled_term (pol : Option Nat → Bool) (w : FuseSt TestWriterSt) (l : List Nat)
    (e b : Bool) (fuel : Nat) :
    assembledPollNext recFused pol (fuel + 1) ⟨l, w, none, .terminated, e, b⟩ =
      (⟨l, w, none, .terminated, e, true⟩, .ready none, []) := by
  simp [assembledPollNext]

theorem assembled_fire (pol : Option Nat → Bool) {l seg rest : List Nat} (acc : List Nat)
    (c : Nat) (e : Bool) (fuel : Nat)
    (hs : splitFire (fun p => pol (some p)) l = some (seg, rest))
    (hfuel : 2 * l.length + 1 ≤ fuel) :
    assembledPollNext recFused pol fuel
        ⟨l, ⟨⟨acc, 1, c, none⟩, false⟩, none, .pollNext, e, false⟩ =
      (⟨rest, ⟨⟨[], 1, c + 1, none⟩, false⟩, none, .pollNext, true, false⟩,
        .ready (some (.ok (acc ++ seg))), pullSendTrace seg ++ [.completeOk]) := by
  induction l generalizing seg rest acc e fuel with
  | nil => simp [splitFire] at hs
  | cons p t ih =>
    simp only [List.length_cons] at hfuel
    obtain ⟨f1, rfl⟩ : ∃ f, fuel = f + 1 := ⟨fuel - 1, by omega⟩
    obtain ⟨f2, rfl⟩ : ∃ f, f1 = f + 1 := ⟨f1 - 1, by omega⟩
    by_cases hp : pol (some p)
    · rw [splitFire, if_pos hp] at hs
      obtain ⟨rfl, rfl⟩ : [p] = seg ∧ t = rest := by
        constructor <;> [exact congrArg Prod.fst (Option.some.inj hs);
          exact congrArg Prod.snd (Option.some.inj hs)]
      obtain ⟨f3, rfl⟩ : ∃ f, f2 = f + 1 := ⟨f2 - 1, by omega⟩
      simp only [assembledPollNext, recFused_ready, recFused_send, recFused_complete,
        hp, pullSendTrace, if_true, List.nil_append]
      simp
    · rw [splitFire, if_neg hp] at hs
      cases ht : splitFire (fun p => pol (some p)) t with
      | none => rw [ht] at hs; exact absurd hs (by simp)
      | some pr =>
        obtain ⟨a, b⟩ := pr
        rw [ht] at hs
        obtain ⟨rfl, rfl⟩ : p :: a = seg ∧ b = rest := by
          constructor <;> [exact congrArg Prod.fst (Option.some.inj hs);
            exact congrArg Prod.snd (Option.some.inj hs)]
        have step := ih (acc ++ [p]) false f2 ht (by omega)
        simp only [assembledPollNext, recFused_ready, recFused_send, hp, if_false,
          Bool.false_eq_true, step, pullSendTrace]
        simp

theorem assembled_nofire (pol : Option Nat → Bool) {l : List Nat} (acc : List Nat)
    (c : Nat) (e : Bool) (fuel : Nat)
    (hs : splitFire (fun p => pol (some p)) l = none)
    (hne : l ≠ [] ∨ e = false)
    (hfuel : 2 * l.length + 2 ≤ fuel) :
    assembledPollNext recFused pol fuel
        ⟨l, ⟨⟨acc, 1, c, none⟩, false⟩, none, .pollNext, e, false⟩ =
      (⟨[], ⟨⟨[], 1, c + 1, none⟩, false⟩, none, .terminated, false, false⟩,
        .ready (some (.ok (acc ++ l))), pullSendTrace l ++ [.pullNone, .completeOk]) := by
  induction l generalizing acc e fuel with
  | nil =>
    obtain rfl : e = false := by
      rcases hne with h | h
      · exact absurd rfl h
      · exact h
    obtain ⟨f1, rfl⟩ : ∃ f, fuel = f + 1 := ⟨fuel - 1, by omega⟩
    obtain ⟨f2, rfl⟩ : ∃ f, f1 = f + 1 := ⟨f1 - 1, by omega⟩
    simp only [assembledPollNext, recFused_complete, pullSendTrace]
    simp
  | cons p t ih =>
    simp only [List.length_cons] at hfuel
    have hp : pol (some p) = false := by
      by_cases h : pol (some p) = true
      · rw [splitFire, if_pos h] at hs; exact absurd hs (by simp)
      · simpa using h
    rw [splitFire, if_neg (by simp [hp])] at hs
    have ht : splitFire (fun p => pol (some p)) t = none := by
      cases h2 : splitFire (fun p => pol (some p)) t with
      | none => rfl
      | some pr => obtain ⟨a, b⟩ := pr; rw [h2] at hs; exact absurd hs (by simp)
    obtain ⟨f1, rfl⟩ : ∃ f, fuel = f + 1 := ⟨fuel - 1, by omega⟩
    obtain ⟨f2, rfl⟩ : ∃ f, f1 = f + 1 := ⟨f1 - 1, by omega⟩
    have step := ih (acc ++ [p]) false f2 ht (Or.inr rfl) (by omega)
    simp only [assembledPollNext, recFused_ready, recFused_send, hp, if_false,
      Bool.false_eq_true, step, pullSendTrace]
    simp

theorem assembled_drive (pol : Option Nat → Bool) :
    ∀ n l c F ofuel, l.length ≤ n → 2 * l.length + 2 ≤ F → l.length + 2 ≤ ofuel →
      ∃ tr, driveStream (fun s => assembledPollNext recFused pol F s) ofuel
          ⟨l, ⟨⟨[], 1, c, none⟩, false⟩, none, .pollNext, true, false⟩ =
        ((sessions (fun p => pol (some p)) [] l).map Except.ok, tr, true) ∧
        sendsOf tr = l ∧
        completesOf tr = (sessions (fun p => pol (some p)) [] l).length := by
  intro n
  induction n with
  | zero =>
    intro l c F ofuel hn hF ho
    obtain rfl : l = [] := List.length_eq_zero.mp (Nat.le_zero.mp hn)
    obtain ⟨o1, rfl⟩ : ∃ o, ofuel = o + 1 := ⟨ofuel - 1, by omega⟩
    obtain ⟨F1, rfl⟩ : ∃ f, F = f + 1 := ⟨F - 1, by omega⟩
    refine ⟨[.pullNone], ?_, rfl, rfl⟩
    simp only [driveStream, assembled_stop, sessions, List.isEmpty_nil, if_true, List.map_nil]
  | succ n ih =>
    intro l c F ofuel hn hF ho
    cases hsf : splitFire (fun p => pol (some p)) l with
    | some pr =>
      obtain ⟨seg, rest⟩ := pr
      have hl : l = seg ++ rest := splitFire_append _ hsf
      have hseg : seg ≠ [] := splitFire_ne_nil _ hsf
      have hrest : rest.length < l.length := by
        rw [hl]; simp [List.length_append]
        cases seg with
        | nil => exact absurd rfl hseg
        | cons a b => simp
      obtain ⟨o1, rfl⟩ : ∃ o, ofuel = o + 1 := ⟨ofuel - 1, by omega⟩
      obtain ⟨tr', h1, h2, h3⟩ := ih rest (c + 1) F o1 (by omega) (by omega) (by omega)
      refine ⟨(pullSendTrace seg ++ [.completeOk]) ++ tr', ?_, ?_, ?_⟩
      · simp only [driveStream, assembled_fire pol [] c true F hsf (by omega),
          List.nil_append, h1, sessions_fire _ [] hsf, List.map_cons]
      · rw [sendsOf_append, sendsOf_append, sendsOf_pullSendTrace, h2, hl]
        simp [sendsOf]
      · rw [completesOf_append, completesOf_append, completesOf_pullSendTrace, h3,
          sessions_fire _ [] hsf]
        simp [completesOf]
        omega
    | none =>
      cases hl : l with
      | nil =>
        subst hl
        obtain ⟨o1, rfl⟩ : ∃ o, ofuel = o + 1 := ⟨ofuel - 1, by omega⟩
        obtain ⟨F1, rfl⟩ : ∃ f, F = f + 1 := ⟨F - 1, by omega⟩
        refine ⟨[.pullNone], ?_, rfl, rfl⟩
        simp only [driveStream, assembled_stop, sessions, List.isEmpty_nil, if_true,
          List.map_nil]
      | cons p t =>
        subst hl
        obtain ⟨o1, rfl⟩ : ∃ o, ofuel = o + 1 := ⟨ofuel - 1, by omega⟩
        obtain ⟨o2, rfl⟩ : ∃ o, o1 = o + 1 := ⟨o1 - 1, by omega⟩
        obtain ⟨F1, rfl⟩ : ∃ f, F = f + 1 := ⟨F - 1, by omega⟩
        refine ⟨(pullSendTrace (p :: t) ++ [.pullNone, .completeOk]) ++ [], ?_, ?_, ?_⟩
        · simp only [driveStream,
            assembled_nofire pol [] c true (F1 + 1) hsf (Or.inl (by simp)) (by omega),
            List.nil_append, assembled_term, sessions_nofire _ [] hsf]
          simp
        · rw [sendsOf_append, sendsOf_append, sendsOf_pullSendTrace]
          simp [sendsOf]
        · rw [completesOf_append, completesOf_append, completesOf_pullSendTrace,
            sessions_nofire _ [] hsf]
          simp [completesOf]

theorem testWriter_send (acc : List Nat) (c p : Nat) :
    testWriter.start_send ⟨acc, 1, c, none⟩ p = (⟨acc ++ [p], 1, c, none⟩, .ok p) := by
  simp [testWriter]

theorem trySend_item (p : Nat) (t acc : List Nat) (c fuel : Nat) :
    trySendPollNext testWriter (fuel + 2) ⟨some (p :: t), ⟨acc, 1, c, none⟩, none, false⟩ =
      (⟨some t, ⟨acc ++ [p], 1, c, none⟩, none, false⟩, .ready (some (.ok p)),
        [.pullSome p, .readyOk, .send p]) := by
  simp only [trySendPollNext, testWriter, testWriter_send]
  simp [testWriter]

theorem trySend_end (acc : List Nat) (c fuel : Nat) :
    trySendPollNext testWriter (fuel + 2) ⟨some [], ⟨acc, 1, c, none⟩, none, false⟩ =
      (⟨none, ⟨acc, 1, c, none⟩, none, true⟩, .ready none, [.pullNone, .flushOk]) := by
  simp [trySendPollNext, testWriter]

theorem trySend_complete (st : Option (List Nat)) (acc : List Nat) (c : Nat) (b : Bool) :
    trySendPollComplete testWriter ⟨st, ⟨acc, 1, c, none⟩, none, b⟩ =
      (⟨st, ⟨[], 1, c + 1, none⟩, none, b⟩, .ready (.ok acc), [.flushOk, .completeOk]) := by
  simp [trySendPollComplete, testWriter]

theorem trySend_item' (p : Nat) (t acc : List Nat) (c : Nat) {fuel : Nat} (h : 2 ≤ fuel) :
    trySendPollNext testWriter fuel ⟨some (p :: t), ⟨acc, 1, c, none⟩, none, false⟩ =
      (⟨some t, ⟨acc ++ [p], 1, c, none⟩, none, false⟩, .ready (some (.ok p)),
        [.pullSome p, .readyOk, .send p]) := by
  obtain ⟨f, rfl⟩ : ∃ f, fuel = f + 2 := ⟨fuel - 2, by omega⟩
  exact trySend_item p t acc c f

theorem trySend_end' (acc : List Nat) (c : Nat) {fuel : Nat} (h : 2 ≤ fuel) :
    trySendPollNext testWriter fuel ⟨some [], ⟨acc, 1, c, none⟩, none, false⟩ =
      (⟨none, ⟨acc, 1, c, none⟩, none, true⟩, .ready none, [.pullNone, .flushOk]) := by
  obtain ⟨f, rfl⟩ : ∃ f, fuel = f + 2 := ⟨fuel - 2, by omega⟩
  exact trySend_end acc c f

theorem cw_fire (pol : Nat → Bool) {l seg rest : List Nat} (acc : List Nat)
    (c fuel : Nat) (hs : splitFire pol l = some (seg, rest))
    (hfuel : l.length + 3 ≤ fuel) :
    completeWhenPollNext testWriter pol fuel
        ⟨⟨some l, ⟨acc, 1, c, none⟩, none, false⟩, false, false⟩ =
      (⟨⟨some rest, ⟨[], 1, c + 1, none⟩, none, false⟩, false, false⟩,
        .ready (some (.ok (acc ++ seg))), pullSendTrace seg ++ [.flushOk, .completeOk]) := by
  induction l generalizing seg rest acc fuel with
  | nil => simp [splitFire] at hs
  | cons p t ih =>
    simp only [List.length_cons] at hfuel
    by_cases hp : pol p = true
    · rw [splitFire, if_pos hp] at hs
      obtain ⟨rfl, rfl⟩ : [p] = seg ∧ t = rest := by
        constructor <;> [exact congrArg Prod.fst (Option.some.inj hs);
          exact congrArg Prod.snd (Option.some.inj hs)]
      obtain ⟨f1, rfl⟩ : ∃ f, fuel = f + 2 := ⟨fuel - 2, by omega⟩
      simp only [completeWhenPollNext, @trySend_item' p t acc c (f1 + 1) (by omega), hp,
        if_true, trySend_complete, pullSendTrace]
      simp
    · rw [splitFire, if_neg hp] at hs
      cases ht : splitFire pol t with
      | none => rw [ht] at hs; exact absurd hs (by simp)
      | some pr =>
        obtain ⟨a, b⟩ := pr
        rw [ht] at hs
        obtain ⟨rfl, rfl⟩ : p :: a = seg ∧ b = rest := by
          constructor <;> [exact congrArg Prod.fst (Option.some.inj hs);
            exact congrArg Prod.snd (Option.some.inj hs)]
        obtain ⟨f1, rfl⟩ : ∃ f, fuel = f + 1 := ⟨fuel - 1, by omega⟩
        have step := ih (acc ++ [p]) f1 ht (by omega)
        simp only [completeWhenPollNext, @trySend_item' p t acc c f1 (by omega), hp,
          if_false, Bool.false_eq_true, step, pullSendTrace]
        simp

theorem cw_nofire (pol : Nat → Bool) {l : List Nat} (acc : List Nat)
    (c fuel : Nat) (hs : splitFire pol l = none) (hfuel : l.length + 3 ≤ fuel) :
    completeWhenPollNext testWriter pol fuel
        ⟨⟨some l, ⟨acc, 1, c, none⟩, none, false⟩, false, false⟩ =
      (⟨⟨none, ⟨acc ++ l, 1, c, none⟩, none, true⟩, false, true⟩,
        .ready none, pullSendTrace l ++ [.pullNone, .flushOk]) := by
  induction l generalizing acc fuel with
  | nil =>
    obtain ⟨f1, rfl⟩ : ∃ f, fuel = f + 1 := ⟨fuel - 1, by omega⟩
    simp only [completeWhenPollNext, @trySend_end' acc c f1 (by omega), pullSendTrace]
    simp
  | cons p t ih =>
    simp only [List.length_cons] at hfuel
    have hp : pol p = false := by
      by_cases h : pol p = true
      · rw [splitFire, if_pos h] at hs; exact absurd hs (by simp)
      · simpa using h
    rw [splitFire, if_neg (by simp [hp])] at hs
    have ht : splitFire pol t = none := by
      cases h2 : splitFire pol t with
      | none => rfl
      | some pr => obtain ⟨a, b⟩ := pr; rw [h2] at hs; exact absurd hs (by simp)
    obtain ⟨f1, rfl⟩ : ∃ f, fuel = f + 1 := ⟨fuel - 1, by omega⟩
    have step := ih (acc ++ [p]) f1 ht (by omega)
    simp only [completeWhenPollNext, @trySend_item' p t acc c f1 (by omega), hp,
      if_false, Bool.false_eq_true, step, pullSendTrace]
    simp

theorem cw_drive (pol : Nat → Bool) :
    ∀ n l c F ofuel, l.length ≤ n → l.length + 3 ≤ F → l.length + 2 ≤ ofuel →
      ∃ tr, driveStream (fun s => completeWhenPollNext testWriter pol F s) ofuel
          ⟨⟨some l, ⟨[], 1, c, none⟩, none, false⟩, false, false⟩ =
        ((cwSessions pol [] l).map Except.ok, tr, true) ∧
        sendsOf tr = l ∧ completesOf tr = (cwSessions pol [] l).length := by
  intro n
  induction n with
  | zero =>
    intro l c F ofuel hn hF ho
    obtain rfl : l = [] := List.length_eq_zero.mp (Nat.le_zero.mp hn)
    obtain ⟨o1, rfl⟩ : ∃ o, ofuel = o + 1 := ⟨ofuel - 1, by omega⟩
    refine ⟨[.pullNone, .flushOk], ?_, rfl, rfl⟩
    simp only [driveStream, @cw_nofire pol [] [] c F rfl (by omega), cwSessions,
      List.map_nil, pullSendTrace, List.nil_append]
  | succ n ih =>
    intro l c F ofuel hn hF ho
    cases hsf : splitFire pol l with
    | some pr =>
      obtain ⟨seg, rest⟩ := pr
      have hl : l = seg ++ rest := splitFire_append _ hsf
      have hseg : seg ≠ [] := splitFire_ne_nil _ hsf
      have hrest : rest.length < l.length := by
        rw [hl]; simp [List.length_append]
        cases seg with
        | nil => exact absurd rfl hseg
        | cons a b => simp
      obtain ⟨o1, rfl⟩ : ∃ o, ofuel = o + 1 := ⟨ofuel - 1, by omega⟩
      obtain ⟨tr', h1, h2, h3⟩ := ih rest (c + 1) F o1 (by omega) (by omega) (by omega)
      refine ⟨(pullSendTrace seg ++ [.flushOk, .completeOk]) ++ tr', ?_, ?_, ?_⟩
      · simp only [driveStream, cw_fire pol [] c F hsf (by omega), List.nil_append, h1,
          cwSessions_fire _ [] hsf, List.map_cons]
      · rw [sendsOf_append, sendsOf_append, sendsOf_pullSendTrace, h2, hl]
        simp [sendsOf]
      · rw [completesOf_append, completesOf_append, completesOf_pullSendTrace, h3,
          cwSessions_fire _ [] hsf]
        simp [completesOf]
        omega
    | none =>
      obtain ⟨o1, rfl⟩ : ∃ o, ofuel = o + 1 := ⟨ofuel - 1, by omega⟩
      refine ⟨pullSendTrace l ++ [.pullNone, .flushOk], ?_, ?_, ?_⟩
      · simp only [driveStream, cw_nofire pol [] c F hsf (by omega),
          cwSessions_nofire _ [] hsf, List.map_nil]
      · rw [sendsOf_append, sendsOf_pullSendTrace]
        simp [sendsOf]
      · rw [completesOf_append, completesOf_pullSendTrace, cwSessions_nofire _ [] hsf]
        simp [completesOf]

theorem wu_terminating (pol : Nat → Bool) (inner : TrySendSt TestWriterSt Nat) (e : Bool)
    (fuel : Nat) :
    writeUntilPollNext testWriter pol (fuel + 1) ⟨inner, .terminating, e⟩ =
      (⟨inner, .terminated, e⟩, .ready none, []) := by
  simp [writeUntilPollNext]

theorem wu_fire (pol : Nat → Bool) {l seg rest : List Nat} (acc : List Nat)
    (c fuel : Nat) (e : Bool) (hs : splitFire pol l = some (seg, rest))
    (hfuel : l.length + 3 ≤ fuel) :
    writeUntilPollNext testWriter pol fuel
        ⟨⟨some l, ⟨acc, 1, c, none⟩, none, false⟩, .pollNext, e⟩ =
      (⟨⟨some rest, ⟨[], 1, c + 1, none⟩, none, false⟩, .pollNext, true⟩,
        .ready (some (.ok (acc ++ seg))), pullSendTrace seg ++ [.flushOk, .completeOk]) := by
  induction l generalizing seg rest acc fuel e with
  | nil => simp [splitFire] at hs
  | cons p t ih =>
    simp only [List.length_cons] at hfuel
    by_cases hp : pol p = true
    · rw [splitFire, if_pos hp] at hs
      obtain ⟨rfl, rfl⟩ : [p] = seg ∧ t = rest := by
        constructor <;> [exact congrArg Prod.fst (Option.some.inj hs);
          exact congrArg Prod.snd (Option.some.inj hs)]
      obtain ⟨f1, rfl⟩ : ∃ f, fuel = f + 2 := ⟨fuel - 2, by omega⟩
      simp only [writeUntilPollNext, @trySend_item' p t acc c (f1 + 1) (by omega), hp,
        if_true, trySend_complete, pullSendTrace, WuState.should_complete,
        WuState.is_last_complete]
      simp [WuState.should_complete, WuState.is_last_complete]
    · rw [splitFire, if_neg hp] at hs
      cases ht : splitFire pol t with
      | none => rw [ht] at hs; exact absurd hs (by simp)
      | some pr =>
        obtain ⟨a, b⟩ := pr
        rw [ht] at hs
        obtain ⟨rfl, rfl⟩ : p :: a = seg ∧ b = rest := by
          constructor <;> [exact congrArg Prod.fst (Option.some.inj hs);
            exact congrArg Prod.snd (Option.some.inj hs)]
        obtain ⟨f1, rfl⟩ : ∃ f, fuel = f + 1 := ⟨fuel - 1, by omega⟩
        have step := ih (acc ++ [p]) f1 false ht (by omega)
        simp only [writeUntilPollNext, @trySend_item' p t acc c f1 (by omega), hp,
          if_false, Bool.false_eq_true, step, pullSendTrace, WuState.should_complete]
        simp [WuState.should_complete]

theorem wu_empty_end (pol : Nat → Bool) (acc : List Nat) (c : Nat) {fuel : Nat}
    (hfuel : 3 ≤ fuel) :
    writeUntilPollNext testWriter pol fuel
        ⟨⟨some [], ⟨acc, 1, c, none⟩, none, false⟩, .pollNext, true⟩ =
      (⟨⟨none, ⟨acc, 1, c, none⟩, none, true⟩, .terminated, true⟩,
        .ready none, [.pullNone, .flushOk]) := by
  obtain ⟨f1, rfl⟩ : ∃ f, fuel = f + 1 := ⟨fuel - 1, by omega⟩
  simp only [writeUntilPollNext, @trySend_end' acc c f1 (by omega),
    WuState.should_complete]
  simp [WuState.should_complete]

theorem wu_nofire (pol : Nat → Bool) {l : List Nat} (acc : List Nat)
    (c fuel : Nat) (e : Bool) (hs : splitFire pol l = none)
    (hne : l ≠ [] ∨ e = false) (hfuel : l.length + 3 ≤ fuel) :
    writeUntilPollNext testWriter pol fuel
        ⟨⟨some l, ⟨acc, 1, c, none⟩, none, false⟩, .pollNext, e⟩ =
      (⟨⟨none, ⟨[], 1, c + 1, none⟩, none, true⟩, .terminating, true⟩,
        .ready (some (.ok (acc ++ l))),
        (pullSendTrace l ++ [.pullNone, .flushOk]) ++ [.flushOk, .completeOk]) := by
  induction l generalizing acc fuel e with
  | nil =>
    obtain rfl : e = false := by
      rcases hne with h | h
      · exact absurd rfl h
      · exact h
    obtain ⟨f1, rfl⟩ : ∃ f, fuel = f + 2 := ⟨fuel - 2, by omega⟩
    simp only [writeUntilPollNext, @trySend_end' acc c (f1 + 1) (by omega),
      trySend_complete, WuState.should_complete, WuState.is_last_complete, pullSendTrace]
    simp [WuState.should_complete, WuState.is_last_complete]
  | cons p t ih =>
    simp only [List.length_cons] at hfuel
    have hp : pol p = false := by
      by_cases h : pol p = true
      · rw [splitFire, if_pos h] at hs; exact absurd hs (by simp)
      · simpa using h
    rw [splitFire, if_neg (by simp [hp])] at hs
    have ht : splitFire pol t = none := by
      cases h2 : splitFire pol t with
      | none => rfl
      | some pr => obtain ⟨a, b⟩ := pr; rw [h2] at hs; exact absurd hs (by simp)
    obtain ⟨f1, rfl⟩ : ∃ f, fuel = f + 1 := ⟨fuel - 1, by omega⟩
    have step := ih (acc ++ [p]) f1 false ht (Or.inr rfl) (by omega)
    simp only [writeUntilPollNext, @trySend_item' p t acc c f1 (by omega), hp, if_false,
      Bool.false_eq_true, step, pullSendTrace, WuState.should_complete]
    simp [WuState.should_complete]

theorem wu_drive (pol : Nat → Bool) :
    ∀ n l c F ofuel, l.length ≤ n → l.length + 3 ≤ F → l.length + 3 ≤ ofuel →
      ∃ tr, driveStream (fun s => writeUntilPollNext testWriter pol F s) ofuel
          ⟨⟨some l, ⟨[], 1, c, none⟩, none, false⟩, .pollNext, true⟩ =
        ((sessions pol [] l).map Except.ok, tr, true) ∧
        sendsOf tr = l ∧ completesOf tr = (sessions pol [] l).length := by
  intro n
  induction n with
  | zero =>
    intro l c F ofuel hn hF ho
    obtain rfl : l = [] := List.length_eq_zero.mp (Nat.le_zero.mp hn)
    obtain ⟨o1, rfl⟩ : ∃ o, ofuel = o + 1 := ⟨ofuel - 1, by omega⟩
    refine ⟨[.pullNone, .flushOk], ?_, rfl, rfl⟩
    simp only [driveStream, @wu_empty_end pol [] c F (by omega), sessions,
      List.isEmpty_nil, if_true, List.map_nil]
  | succ n ih =>
    intro l c F ofuel hn hF ho
    cases hsf : splitFire pol l with
    | some pr =>
      obtain ⟨seg, rest⟩ := pr
      have hl : l = seg ++ rest := splitFire_append _ hsf
      have hseg : seg ≠ [] := splitFire_ne_nil _ hsf
      have hrest : rest.length < l.length := by
        rw [hl]; simp [List.length_append]
        cases seg with
        | nil => exact absurd rfl hseg
        | cons a b => simp
      obtain ⟨o1, rfl⟩ : ∃ o, ofuel = o + 1 := ⟨ofuel - 1, by omega⟩
      obtain ⟨tr', h1, h2, h3⟩ := ih rest (c + 1) F o1 (by omega) (by omega) (by omega)
      refine ⟨(pullSendTrace seg ++ [.flushOk, .completeOk]) ++ tr', ?_, ?_, ?_⟩
      · simp only [driveStream, wu_fire pol [] c F true hsf (by omega), List.nil_append,
          h1, sessions_fire _ [] hsf, List.map_cons]
      · rw [sendsOf_append, sendsOf_append, sendsOf_pullSendTrace, h2, hl]
        simp [sendsOf]
      · rw [completesOf_append, completesOf_append, completesOf_pullSendTrace, h3,
          sessions_fire _ [] hsf]
        simp [completesOf]
        omega
    | none =>
      cases hl : l with
      | nil =>
        subst hl
        obtain ⟨o1, rfl⟩ : ∃ o, ofuel = o + 1 := ⟨ofuel - 1, by omega⟩
        refine ⟨[.pullNone, .flushOk], ?_, rfl, rfl⟩
        simp only [driveStream, @wu_empty_end pol [] c F (by omega), sessions,
          List.isEmpty_nil, if_true, List.map_nil]
      | cons p t =>
        subst hl
        obtain ⟨o1, rfl⟩ : ∃ o, ofuel = o + 1 := ⟨ofuel - 1, by omega⟩
        obtain ⟨o2, rfl⟩ : ∃ o, o1 = o + 1 := ⟨o1 - 1, by omega⟩
        obtain ⟨F1, rfl⟩ : ∃ f, F = f + 1 := ⟨F - 1, by omega⟩
        refine ⟨((pullSendTrace (p :: t) ++ [.pullNone, .flushOk]) ++
          [.flushOk, .completeOk]) ++ [], ?_, ?_, ?_⟩
        · simp only [driveStream,
            wu_nofire pol [] c (F1 + 1) true hsf (Or.inl (by simp)) (by omega),
            List.nil_append, wu_terminating, sessions_nofire _ [] hsf]
          simp
        · rw [sendsOf_append, sendsOf_append, sendsOf_append, sendsOf_pullSendTrace]
          simp [sendsOf]
        · rw [completesOf_append, completesOf_append, completesOf_append,
            completesOf_pullSendTrace, sessions_nofire _ [] hsf]
          simp [completesOf]

theorem testWriter_ready (s : TestWriterSt) :
    testWriter.poll_ready s = (s, .ready (.ok ())) := rfl

theorem testWriter_flush (s : TestWriterSt) :
    testWriter.poll_flush s = (s, .ready (.ok ())) := rfl

theorem testWriter_complete (acc : List Nat) (c : Nat) :
    testWriter.poll_complete ⟨acc, 1, c, none⟩ = (⟨[], 1, c + 1, none⟩, .ready (.ok acc)) :=
  rfl

theorem cc_run (l : List Nat) : ∀ (acc : List Nat) (c fuel : Nat),
    2 * l.length + 2 ≤ fuel →
    collectCompletePoll testWriter fuel ⟨⟨acc, 1, c, none⟩, some l, none, false⟩ =
      (⟨⟨[], 1, c + 1, none⟩, none, none, true⟩, .ready (.ok (acc ++ l)),
        pullSendTrace l ++ [.pullNone, .flushOk, .completeOk]) := by
  induction l with
  | nil =>
    intro acc c fuel hfuel
    obtain ⟨f1, rfl⟩ : ∃ f, fuel = f + 2 := ⟨fuel - 2, by omega⟩
    simp only [collectCompletePoll, testWriter_ready, testWriter_flush,
      testWriter_complete, pullSendTrace]
    simp
  | cons p t ih =>
    intro acc c fuel hfuel
    simp only [List.length_cons] at hfuel
    obtain ⟨f1, rfl⟩ : ∃ f, fuel = f + 2 := ⟨fuel - 2, by omega⟩
    have step := ih (acc ++ [p]) c f1 (by omega)
    simp only [collectCompletePoll, testWriter_ready, testWriter_send, step,
      pullSendTrace]
    simp

theorem asm_run (l : List Nat) : ∀ (acc : List Nat) (c fuel : Nat),
    2 * l.length + 2 ≤ fuel →
    assemblePoll testWriter fuel ⟨⟨acc, 1, c, none⟩, some l, none, false⟩ =
      (⟨⟨[], 1, c + 1, none⟩, none, none, true⟩, .ready (.ok (acc ++ l)),
        pullSendTrace l ++ [.pullNone, .completeOk]) := by
  induction l with
  | nil =>
    intro acc c fuel hfuel
    obtain ⟨f1, rfl⟩ : ∃ f, fuel = f + 2 := ⟨fuel - 2, by omega⟩
    simp only [assemblePoll, testWriter_ready, testWriter_complete, pullSendTrace]
    simp
  | cons p t ih =>
    intro acc c fuel hfuel
    simp only [List.length_cons] at hfuel
    obtain ⟨f1, rfl⟩ : ∃ f, fuel = f + 2 := ⟨fuel - 2, by omega⟩
    have step := ih (acc ++ [p]) c f1 (by omega)
    simp only [assemblePoll, testWriter_ready, testWriter_send, step, pullSendTrace]
    simp

theorem countUp_append (n m a : Nat) :
    countUp a (m + n) = countUp a m ++ countUp (a + m) n := by
  induction m generalizing a with
  | zero => simp [countUp]
  | succ m ih =>
    have h1 : m + 1 + n = (m + n) + 1 := by omega
    rw [h1, countUp, countUp, ih (a + 1)]
    have h2 : a + 1 + m = a + (m + 1) := by omega
    rw [h2, List.cons_append]

theorem countUp_length (n : Nat) : ∀ a, (countUp a n).length = n := by
  induction n with
  | zero => intro a; rfl
  | succ n ih => intro a; simp [countUp, ih]

theorem mem_countUp {x : Nat} (n : Nat) : ∀ a, x ∈ countUp a n ↔ a ≤ x ∧ x < a + n := by
  induction n with
  | zero => intro a; simp [countUp]
  | succ n ih =>
    intro a
    simp [countUp, ih (a + 1)]
    omega

theorem sessions_block (pol : π → Bool) (l : List π) :
    ∀ (acc t : List π), (∀ x ∈ l, pol x = false) →
      sessions pol acc (l ++ t) = sessions pol (acc ++ l) t := by
  induction l with
  | nil => intro acc t _; simp
  | cons p u ih =>
    intro acc t hall
    have hp : pol p = false := hall p (by simp)
    rw [List.cons_append, sessions, if_neg (by simp [hp]), ih (acc ++ [p]) t
      (fun x hx => hall x (by simp [hx]))]
    simp

theorem sessions_count (K : Nat) (hK : 1 ≤ K) :
    ∀ m j, (sessions (fun r => r % K == 0) [] (countUp (j * K + 1) (m * K))).length = m := by
  intro m
  induction m with
  | zero => intro j; simp [countUp, sessions]
  | succ m ih =>
    intro j
    have hsplit : (m + 1) * K = (K - 1) + (1 + m * K) := by
      cases K with
      | zero => omega
      | succ k => ring_nf; omega
    rw [hsplit, countUp_append (1 + m * K) (K - 1) (j * K + 1),
      countUp_append (m * K) 1 (j * K + 1 + (K - 1))]
    have hcut : j * K + 1 + (K - 1) = (j + 1) * K := by
      cases K with
      | zero => omega
      | succ k => ring_nf; omega
    rw [hcut]
    rw [sessions_block _ _ [] _ ?hall]
    case hall =>
      intro x hx
      rw [mem_countUp] at hx
      obtain ⟨r, hr1, hr2, rfl⟩ : ∃ r, 1 ≤ r ∧ r < K ∧ x = r + j * K :=
        ⟨x - j * K, by omega, by omega, by omega⟩
      simp [Nat.add_mul_mod_self_right, Nat.mod_eq_of_lt hr2]
      omega
    have hfire : ((j + 1) * K % K == 0) = true := by
      simp [Nat.mul_mod_left]
    rw [show countUp ((j + 1) * K) 1 = [(j + 1) * K] from rfl, List.cons_append,
      List.nil_append, sessions, if_pos hfire]
    simp only [List.length_cons, List.nil_append]
    rw [ih (j + 1)]

/-- Events after the first `pullNone`, i.e. after the engine observed
source exhaustion. -/
def afterExhaustion : List (Ev π) → List (Ev π)
  | [] => []
  | .pullNone :: t => t
  | _ :: t => afterExhaustion t

/-- C1 (counterexample): driving `CompleteWhen` over `TrySend` to its
end on the Source `[1]` with a never-firing policy and the
verbatim-recording writer yields no Artifact at all, so the
concatenation of the yielded Artifacts' contents is `[]`, which does not
reproduce the Source `[1]`. -/
theorem c1_counterexample :
    (completeWhenRun [1] (fun _ => false)).1 = [] ∧
    (completeWhenRun [1] (fun _ => false)).2.2 = true ∧
    ([] : List Nat) ≠ [1] := by
  refine ⟨rfl, rfl, by simp⟩

/-- C1 (amended): for every finite Source and every completion policy,
both `Assembled` and `CompleteWhen` over `TrySend` with the
verbatim-recording writer send every Part to the writer exactly once in
exact Source order, and yield Artifacts in cut order; for `Assembled`
the concatenation of the yielded Artifacts' contents reproduces the
Source exactly, while `CompleteWhen` yields exactly the policy-closed
sessions, never completing the trailing segment after the last cut. -/
theorem c1_source_order (src : List Nat) (polA : Option Nat → Bool) (polC : Nat → Bool) :
    ∃ trA trC,
      assembledRun src polA =
        ((sessions (fun p => polA (some p)) [] src).map Except.ok, trA, true) ∧
      sendsOf trA = src ∧
      (sessions (fun p => polA (some p)) [] src).flatten = src ∧
      completeWhenRun src polC = ((cwSessions polC [] src).map Except.ok, trC, true) ∧
      sendsOf trC = src := by
  obtain ⟨trA, h1, h2, _⟩ := assembled_drive polA src.length src 0 (2 * src.length + 3)
    (src.length + 2) le_rfl (by omega) (by omega)
  obtain ⟨trC, g1, g2, _⟩ := cw_drive polC src.length src 0 (2 * src.length + 6)
    (src.length + 2) le_rfl (by omega) (by omega)
  exact ⟨trA, trC, h1, h2, sessions_flatten _ [] src, g1, g2⟩

/-- C2: Scenario B.  `Assembled` on the Source `[1..12]` with the
verbatim-recording writer and the policy `ack % 5 == 0` yields exactly
the Artifacts `[1..5]`, `[6..10]`, `[11,12]` and then ends the stream;
after the Source is exhausted with session data pending, the engine
issues exactly one final completion (and nothing else) before ending. -/
theorem c2_scenario_b :
    (assembledRun (countUp 1 12)
        (fun r => r.elim false (fun n => n % 5 == 0))).1 =
      [.ok [1, 2, 3, 4, 5], .ok [6, 7, 8, 9, 10], .ok [11, 12]] ∧
    (assembledRun (countUp 1 12) (fun r => r.elim false (fun n => n % 5 == 0))).2.2 = true ∧
    completesOf
      (assembledRun (countUp 1 12) (fun r => r.elim false (fun n => n % 5 == 0))).2.1 = 3 ∧
    afterExhaustion
      (assembledRun (countUp 1 12) (fun r => r.elim false (fun n => n % 5 == 0))).2.1 =
      [.completeOk] := by
  exact ⟨rfl, rfl, rfl, rfl⟩

/-- C3: with the Source `[1..N]` and a policy firing on every `K`-th
acknowledgement (`K ≥ 1`, `K ∣ N`), both `Assembled` and `WriteUntil`
yield exactly `N / K` Artifacts and issue exactly `N / K` writer
completions — in particular no completion at all for `N = 0`, and no
trailing completion when the Source is exhausted right after a
policy-triggered cut. -/
theorem c3_every_kth (N K : Nat) (hK : 1 ≤ K) (hdvd : K ∣ N) :
    ∃ trA trW,
      assembledRun (countUp 1 N) (fun r => r.elim false (fun n => n % K == 0)) =
        (((sessions (fun n => n % K == 0) [] (countUp 1 N)).map Except.ok), trA, true) ∧
      (sessions (fun n => n % K == 0) [] (countUp 1 N)).length = N / K ∧
      completesOf trA = N / K ∧
      writeUntilRun (countUp 1 N) (fun n => n % K == 0) =
        (((sessions (fun n => n % K == 0) [] (countUp 1 N)).map Except.ok), trW, true) ∧
      completesOf trW = N / K := by
  obtain ⟨m, rfl⟩ := hdvd
  have hdiv : K * m / K = m := Nat.mul_div_cancel_left m (by omega)
  have hlen : (sessions (fun n => n % K == 0) [] (countUp 1 (K * m))).length = m := by
    have := sessions_count K hK m 0
    simpa [Nat.mul_comm] using this
  obtain ⟨trA, h1, _, h3⟩ := assembled_drive
    (fun r => r.elim false (fun n => n % K == 0)) (countUp 1 (K * m)).length
    (countUp 1 (K * m)) 0 (2 * (countUp 1 (K * m)).length + 3)
    ((countUp 1 (K * m)).length + 2) le_rfl (by omega) (by omega)
  obtain ⟨trW, g1, _, g3⟩ := wu_drive (fun n => n % K == 0) (countUp 1 (K * m)).length
    (countUp 1 (K * m)) 0 (2 * (countUp 1 (K * m)).length + 6)
    ((countUp 1 (K * m)).length + 3) le_rfl (by omega) (by omega)
  rw [show (fun p => (some p : Option Nat).elim false (fun n => n % K == 0)) =
    (fun n => n % K == 0) from rfl] at h1 h3
  refine ⟨trA, trW, h1, by rw [hlen, hdiv], ?_, g1, ?_⟩
  · rw [h3, hlen, hdiv]
  · rw [g3, hlen, hdiv]

/-- C4: the drive-to-completion futures `CollectComplete` and `Assemble`
(no policy ever fires) drain the whole Source into one session and
resolve to a single Artifact holding all parts in Source order, with the
writer's `poll_complete` issued exactly once, after Source exhaustion. -/
theorem c4_single_artifact (src : List Nat) :
    collectCompleteRun src =
      (⟨⟨[], 1, 1, none⟩, none, none, true⟩, .ready (.ok src),
        pullSendTrace src ++ [.pullNone, .flushOk, .completeOk]) ∧
    assembleRun src =
      (⟨⟨[], 1, 1, none⟩, none, none, true⟩, .ready (.ok src),
        pullSendTrace src ++ [.pullNone, .completeOk]) ∧
    sendsOf (pullSendTrace src ++ [Ev.pullNone, Ev.flushOk, Ev.completeOk]) = src ∧
    completesOf (pullSendTrace src ++ [Ev.pullNone, Ev.flushOk, Ev.completeOk]) = 1 ∧
    sendsOf (pullSendTrace src ++ [Ev.pullNone, Ev.completeOk]) = src ∧
    completesOf (pullSendTrace src ++ [Ev.pullNone, Ev.completeOk]) = 1 := by
  have h1 := cc_run src [] 0 (2 * src.length + 4) (by omega)
  have h2 := asm_run src [] 0 (2 * src.length + 4) (by omega)
  refine ⟨by simpa using h1, by simpa using h2, ?_, ?_, ?_, ?_⟩
  · rw [sendsOf_append, sendsOf_pullSendTrace]; simp [sendsOf]
  · rw [completesOf_append, completesOf_pullSendTrace]; simp [completesOf]
  · rw [sendsOf_append, sendsOf_pullSendTrace]; simp [sendsOf]
  · rw [completesOf_append, completesOf_pullSendTrace]; simp [completesOf]

/-- C3 witness at `N = 6`, `K = 2`. -/
theorem c3_every_kth_witness :
    (1 ≤ 2 ∧ (2 : Nat) ∣ 6) ∧
    (∃ trA trW,
      assembledRun (countUp 1 6) (fun r => r.elim false (fun n => n % 2 == 0)) =
        (((sessions (fun n => n % 2 == 0) [] (countUp 1 6)).map Except.ok), trA, true) ∧
      (sessions (fun n => n % 2 == 0) [] (countUp 1 6)).length = 6 / 2 ∧
      completesOf trA = 6 / 2 ∧
      writeUntilRun (countUp 1 6) (fun n => n % 2 == 0) =
        (((sessions (fun n => n % 2 == 0) [] (countUp 1 6)).map Except.ok), trW, true) ∧
      completesOf trW = 6 / 2) :=
  ⟨⟨by decide, by decide⟩, c3_every_kth 6 2 (by decide) (by decide)⟩

theorem trySend_scanBuf (W : MWrite σ π ρ ω ε) :
    ∀ fuel (s : TrySendSt σ π),
      scanBuf s.buffered.isSome false (trySendPollNext W fuel s).2.2 =
        some (trySendPollNext W fuel s).1.buffered.isSome := by
  intro fuel
  induction fuel with
  | zero => intro s; rfl
  | succ fuel ih =>
    intro s
    obtain ⟨st, w0, buf, term⟩ := s
    cases buf with
    | some it =>
      simp only [trySendPollNext]
      rcases hr : W.poll_ready w0 with ⟨w, pr⟩
      cases pr with
      | pending =>
        rcases hf : W.poll_flush w with ⟨w', fr⟩
        cases fr with
        | pending => simp [hr, hf, scanBuf]
        | ready r =>
          cases r with
          | error e => simp [hr, hf, scanBuf]
          | ok u =>
            cases u
            rcases hrec : trySendPollNext W fuel
              ⟨st, w', some it, term⟩ with ⟨s', r', tr⟩
            have ihX := ih ⟨st, w', some it, term⟩
            rw [hrec] at ihX
            simp only [Option.isSome_some] at ihX
            simp [hr, hf, hrec, scanBuf, ihX]
      | ready r =>
        cases r with
        | error e => simp [hr, scanBuf]
        | ok u =>
          cases u
          rcases hsend : W.start_send w it with ⟨w', sr⟩
          cases sr with
          | ok ret => simp [hr, hsend, scanBuf]
          | error e => simp [hr, hsend, scanBuf]
    | none =>
      simp only [trySendPollNext]
      cases st with
      | none =>
        rcases hf : W.poll_flush w0 with ⟨w, fr⟩
        cases fr with
        | pending => simp [hf, scanBuf]
        | ready r =>
          cases r with
          | error e => simp [hf, scanBuf]
          | ok u => cases u; simp [hf, scanBuf]
      | some l =>
        cases l with
        | nil =>
          rcases hrec : trySendPollNext W fuel ⟨none, w0, none, term⟩ with ⟨s', r', tr⟩
          have ihX := ih ⟨none, w0, none, term⟩
          rw [hrec] at ihX
          simp only [Option.isSome_none] at ihX
          simp [hrec, scanBuf, ihX]
        | cons p rest =>
          rcases hrec : trySendPollNext W fuel
            ⟨some rest, w0, some p, term⟩ with ⟨s', r', tr⟩
          have ihX := ih ⟨some rest, w0, some p, term⟩
          rw [hrec] at ihX
          simp only [Option.isSome_some] at ihX
          simp [hrec, scanBuf, ihX]

theorem collectComplete_scanBuf (W : MWrite σ π ρ ω ε) :
    ∀ fuel (s : CollectCompleteSt σ π),
      scanBuf s.buffered.isSome false (collectCompletePoll W fuel s).2.2 =
        some (collectCompletePoll W fuel s).1.buffered.isSome := by
  intro fuel
  induction fuel with
  | zero => intro s; rfl
  | succ fuel ih =>
    intro s
    obtain ⟨w0, st, buf, term⟩ := s
    cases buf with
    | some it =>
      simp only [collectCompletePoll]
      rcases hr : W.poll_ready w0 with ⟨w, pr⟩
      cases pr with
      | pending =>
        rcases hf : W.poll_flush w with ⟨w', fr⟩
        cases fr with
        | pending => simp [hr, hf, scanBuf]
        | ready r =>
          cases r with
          | error e => simp [hr, hf, scanBuf]
          | ok u =>
            cases u
            rcases hrec : collectCompletePoll W fuel
              ⟨w', st, some it, term⟩ with ⟨s', r', tr⟩
            have ihX := ih ⟨w', st, some it, term⟩
            rw [hrec] at ihX
            simp only [Option.isSome_some] at ihX
            simp [hr, hf, hrec, scanBuf, ihX]
      | ready r =>
        cases r with
        | error e => simp [hr, scanBuf]
        | ok u =>
          cases u
          rcases hsend : W.start_send w it with ⟨w', sr⟩
          cases sr with
          | error e => simp [hr, hsend, scanBuf]
          | ok ret =>
            rcases hrec : collectCompletePoll W fuel
              ⟨w', st, none, term⟩ with ⟨s', r', tr⟩
            have ihX := ih ⟨w', st, none, term⟩
            rw [hrec] at ihX
            simp only [Option.isSome_none] at ihX
            simp [hr, hsend, hrec, scanBuf, ihX]
    | none =>
      simp only [collectCompletePoll]
      cases st with
      | none =>
        rcases hf : W.poll_flush w0 with ⟨w, fr⟩
        cases fr with
        | pending => simp [hf, scanBuf]
        | ready r =>
          cases r with
          | error e => simp [hf, scanBuf]
          | ok u =>
            cases u
            rcases hc : W.poll_complete w with ⟨w', cr⟩
            cases cr with
            | pending => simp [hf, hc, scanBuf]
            | ready out => cases out <;> simp [hf, hc, scanBuf]
      | some l =>
        cases l with
        | nil =>
          rcases hrec : collectCompletePoll W fuel ⟨w0, none, none, term⟩ with ⟨s', r', tr⟩
          have ihX := ih ⟨w0, none, none, term⟩
          rw [hrec] at ihX
          simp only [Option.isSome_none] at ihX
          simp [hrec, scanBuf, ihX]
        | cons p rest =>
          rcases hrec : collectCompletePoll W fuel
            ⟨w0, some rest, some p, term⟩ with ⟨s', r', tr⟩
          have ihX := ih ⟨w0, some rest, some p, term⟩
          rw [hrec] at ihX
          simp only [Option.isSome_some] at ihX
          simp [hrec, scanBuf, ihX]

theorem assemble_scanBuf (W : MWrite σ π ρ ω ε) :
    ∀ fuel (s : AssembleSt σ π),
      scanBuf s.buffered.isSome false (assemblePoll W fuel s).2.2 =
        some (assemblePoll W fuel s).1.buffered.isSome := by
  intro fuel
  induction fuel with
  | zero => intro s; rfl
  | succ fuel ih =>
    intro s
    obtain ⟨w0, st, buf, term⟩ := s
    cases buf with
    | some it =>
      simp only [assemblePoll]
      rcases hr : W.poll_ready w0 with ⟨w, pr⟩
      cases pr with
      | pending =>
        rcases hf : W.poll_flush w with ⟨w', fr⟩
        cases fr with
        | pending => simp [hr, hf, scanBuf]
        | ready r =>
          cases r with
          | error e => simp [hr, hf, scanBuf]
          | ok u =>
            cases u
            rcases hrec : assemblePoll W fuel ⟨w', st, some it, term⟩ with ⟨s', r', tr⟩
            have ihX := ih ⟨w', st, some it, term⟩
            rw [hrec] at ihX
            simp only [Option.isSome_some] at ihX
            simp [hr, hf, hrec, scanBuf, ihX]
      | ready r =>
        cases r with
        | error e => simp [hr, scanBuf]
        | ok u =>
          cases u
          rcases hsend : W.start_send w it with ⟨w', sr⟩
          cases sr with
          | error e => simp [hr, hsend, scanBuf]
          | ok ret =>
            rcases hrec : assemblePoll W fuel ⟨w', st, none, term⟩ with ⟨s', r', tr⟩
            have ihX := ih ⟨w', st, none, term⟩
            rw [hrec] at ihX
            simp only [Option.isSome_none] at ihX
            simp [hr, hsend, hrec, scanBuf, ihX]
    | none =>
      simp only [assemblePoll]
      cases st with
      | none =>
        rcases hc : W.poll_complete w0 with ⟨w', cr⟩
        cases cr with
        | pending => simp [hc, scanBuf]
        | ready out => cases out <;> simp [hc, scanBuf]
      | some l =>
        cases l with
        | nil =>
          rcases hrec : assemblePoll W fuel ⟨w0, none, none, term⟩ with ⟨s', r', tr⟩
          have ihX := ih ⟨w0, none, none, term⟩
          rw [hrec] at ihX
          simp only [Option.isSome_none] at ihX
          simp [hrec, scanBuf, ihX]
        | cons p rest =>
          rcases hrec : assemblePoll W fuel ⟨w0, some rest, some p, term⟩ with ⟨s', r', tr⟩
          have ihX := ih ⟨w0, some rest, some p, term⟩
          rw [hrec] at ihX
          simp only [Option.isSome_some] at ihX
          simp [hrec, scanBuf, ihX]

theorem assembled_scanBuf (W : MWrite σ π ρ (Option τ) ε) (f : ρ → Bool) :
    ∀ fuel (s : AssembledSt σ π),
      scanBuf s.buffered.isSome false (assembledPollNext W f fuel s).2.2 =
        some (assembledPollNext W f fuel s).1.buffered.isSome := by
  intro fuel
  induction fuel with
  | zero => intro s; rfl
  | succ fuel ih =>
    intro s
    obtain ⟨st, w0, buf, mst, emp, term⟩ := s
    cases buf with
    | some it =>
      simp only [assembledPollNext]
      rcases hr : W.poll_ready w0 with ⟨w, pr⟩
      cases pr with
      | pending =>
        rcases hf : W.poll_flush w with ⟨w', fr⟩
        cases fr with
        | pending => simp [hr, hf, scanBuf]
        | ready r =>
          cases r with
          | error e => simp [hr, hf, scanBuf]
          | ok u =>
            cases u
            rcases hrec : assembledPollNext W f fuel
              ⟨st, w', some it, mst, emp, term⟩ with ⟨s', r', tr⟩
            have ihX := ih ⟨st, w', some it, mst, emp, term⟩
            rw [hrec] at ihX
            simp only [Option.isSome_some] at ihX
            simp [hr, hf, hrec, scanBuf, ihX]
      | ready r =>
        cases r with
        | error e => simp [hr, scanBuf]
        | ok u =>
          cases u
          rcases hsend : W.start_send w it with ⟨w', sr⟩
          cases sr with
          | error e => simp [hr, hsend, scanBuf]
          | ok ret =>
            rcases hrec : assembledPollNext W f fuel
              ⟨st, w', none, if f ret then .pollComplete false else .pollNext,
                false, term⟩ with ⟨s', r', tr⟩
            have ihX := ih ⟨st, w', none,
              if f ret then .pollComplete false else .pollNext, false, term⟩
            rw [hrec] at ihX
            simp only [Option.isSome_none] at ihX
            simp [hr, hsend, hrec, scanBuf, ihX]
    | none =>
      simp only [assembledPollNext]
      cases mst with
      | pollNext =>
        cases st with
        | cons p rest =>
          rcases hrec : assembledPollNext W f fuel
            ⟨rest, w0, some p, .pollNext, emp, term⟩ with ⟨s', r', tr⟩
          have ihX := ih ⟨rest, w0, some p, .pollNext, emp, term⟩
          rw [hrec] at ihX
          simp only [Option.isSome_some] at ihX
          simp [hrec, scanBuf, ihX]
        | nil =>
          cases emp with
          | true => simp [scanBuf]
          | false =>
            rcases hrec : assembledPollNext W f fuel
              ⟨[], w0, none, .pollComplete true, false, term⟩ with ⟨s', r', tr⟩
            have ihX := ih ⟨[], w0, none, .pollComplete true, false, term⟩
            rw [hrec] at ihX
            simp only [Option.isSome_none] at ihX
            simp [hrec, scanBuf, ihX]
      | pollComplete last =>
        rcases hc : W.poll_complete w0 with ⟨w', cr⟩
        cases cr with
        | pending => simp [hc, scanBuf]
        | ready out =>
          cases out with
          | error e => simp [hc, scanBuf]
          | ok o => cases o <;> cases last <;> simp [hc, scanBuf]
      | terminated => simp [scanBuf]

/-- C5: in every bridge/engine realization (`TrySend`, `CollectComplete`,
`Assemble`, `Assembled`), for every writer, every fuel and every state,
the event trace of one poll obeys the single-slot buffer discipline: a
part is pulled from the source only while the buffer is empty,
`start_send` is issued only for the buffered part and only immediately
after `poll_ready` returned `Ready(Ok)` within the same poll step (no
intervening operation), and the buffer occupancy tracked through the
trace matches the resulting state's buffer. -/
theorem c5_single_buffer {σ π ρ ω ε τ : Type} (W : MWrite σ π ρ ω ε)
    (Wo : MWrite σ π ρ (Option τ) ε) (f : ρ → Bool) (fuel : Nat)
    (s1 : TrySendSt σ π) (s2 : CollectCompleteSt σ π) (s3 : AssembleSt σ π)
    (s4 : AssembledSt σ π) :
    scanBuf s1.buffered.isSome false (trySendPollNext W fuel s1).2.2 =
      some (trySendPollNext W fuel s1).1.buffered.isSome ∧
    scanBuf s2.buffered.isSome false (collectCompletePoll W fuel s2).2.2 =
      some (collectCompletePoll W fuel s2).1.buffered.isSome ∧
    scanBuf s3.buffered.isSome false (assemblePoll W fuel s3).2.2 =
      some (assemblePoll W fuel s3).1.buffered.isSome ∧
    scanBuf s4.buffered.isSome false (assembledPollNext Wo f fuel s4).2.2 =
      some (assembledPollNext Wo f fuel s4).1.buffered.isSome :=
  ⟨trySend_scanBuf W fuel s1, collectComplete_scanBuf W fuel s2,
    assemble_scanBuf W fuel s3, assembled_scanBuf Wo f fuel s4⟩

theorem trySendPollComplete_flush (W : MWrite σ π ρ ω ε) (s : TrySendSt σ π) (fl : Bool) :
    (scanFlushComplete s.buffered.isSome fl (trySendPollComplete W s).2.2).isSome = true := by
  obtain ⟨st, w0, buf, term⟩ := s
  cases buf with
  | some it =>
    simp only [trySendPollComplete]
    rcases hr : W.poll_ready w0 with ⟨w, pr⟩
    cases pr with
    | pending => simp [hr, scanFlushComplete]
    | ready r =>
      cases r with
      | error e => simp [hr, scanFlushComplete]
      | ok u =>
        cases u
        rcases hsend : W.start_send w it with ⟨w', sr⟩
        cases sr with
        | error e => simp [hr, hsend, scanFlushComplete]
        | ok ret =>
          rcases hf : W.poll_flush w' with ⟨w'', fr⟩
          cases fr with
          | pending => simp [hr, hsend, hf, scanFlushComplete]
          | ready r2 =>
            cases r2 with
            | error e => simp [hr, hsend, hf, scanFlushComplete]
            | ok u2 =>
              cases u2
              rcases hc : W.poll_complete w'' with ⟨w3, cr⟩
              cases cr with
              | pending => simp [hr, hsend, hf, hc, scanFlushComplete]
              | ready out => cases out <;> simp [hr, hsend, hf, hc, scanFlushComplete]
  | none =>
    simp only [trySendPollComplete]
    rcases hf : W.poll_flush w0 with ⟨w, fr⟩
    cases fr with
    | pending => simp [hf, scanFlushComplete]
    | ready r =>
      cases r with
      | error e => simp [hf, scanFlushComplete]
      | ok u =>
        cases u
        rcases hc : W.poll_complete w with ⟨w', cr⟩
        cases cr with
        | pending => simp [hf, hc, scanFlushComplete]
        | ready out => cases out <;> simp [hf, hc, scanFlushComplete]

theorem collectComplete_flush (W : MWrite σ π ρ ω ε) :
    ∀ fuel (s : CollectCompleteSt σ π) (fl : Bool),
      (scanFlushComplete s.buffered.isSome fl
        (collectCompletePoll W fuel s).2.2).isSome = true := by
  intro fuel
  induction fuel with
  | zero => intro s fl; rfl
  | succ fuel ih =>
    intro s fl
    obtain ⟨w0, st, buf, term⟩ := s
    cases buf with
    | some it =>
      simp only [collectCompletePoll]
      rcases hr : W.poll_ready w0 with ⟨w, pr⟩
      cases pr with
      | pending =>
        rcases hf : W.poll_flush w with ⟨w', fr⟩
        cases fr with
        | pending => simp [hr, hf, scanFlushComplete]
        | ready r =>
          cases r with
          | error e => simp [hr, hf, scanFlushComplete]
          | ok u =>
            cases u
            rcases hrec : collectCompletePoll W fuel
              ⟨w', st, some it, term⟩ with ⟨s', r', tr⟩
            have ihX := ih ⟨w', st, some it, term⟩ true
            rw [hrec] at ihX
            simp only [Option.isSome_some] at ihX
            simp only [hr, hf, hrec]
            simp [scanFlushComplete, ihX]
      | ready r =>
        cases r with
        | error e => simp [hr, scanFlushComplete]
        | ok u =>
          cases u
          rcases hsend : W.start_send w it with ⟨w', sr⟩
          cases sr with
          | error e => simp [hr, hsend, scanFlushComplete]
          | ok ret =>
            rcases hrec : collectCompletePoll W fuel
              ⟨w', st, none, term⟩ with ⟨s', r', tr⟩
            have ihX := ih ⟨w', st, none, term⟩ false
            rw [hrec] at ihX
            simp only [Option.isSome_none] at ihX
            simp only [hr, hsend, hrec]
            simp [scanFlushComplete, ihX]
    | none =>
      simp only [collectCompletePoll]
      cases st with
      | none =>
        rcases hf : W.poll_flush w0 with ⟨w, fr⟩
        cases fr with
        | pending => simp [hf, scanFlushComplete]
        | ready r =>
          cases r with
          | error e => simp [hf, scanFlushComplete]
          | ok u =>
            cases u
            rcases hc : W.poll_complete w with ⟨w', cr⟩
            cases cr with
            | pending => simp [hf, hc, scanFlushComplete]
            | ready out => cases out <;> simp [hf, hc, scanFlushComplete]
      | some l =>
        cases l with
        | nil =>
          rcases hrec : collectCompletePoll W fuel ⟨w0, none, none, term⟩ with ⟨s', r', tr⟩
          have ihX := ih ⟨w0, none, none, term⟩ fl
          rw [hrec] at ihX
          simp only [Option.isSome_none] at ihX
          simp only [hrec]
          simp [scanFlushComplete, ihX]
        | cons p rest =>
          rcases hrec : collectCompletePoll W fuel
            ⟨w0, some rest, some p, term⟩ with ⟨s', r', tr⟩
          have ihX := ih ⟨w0, some rest, some p, term⟩ fl
          rw [hrec] at ihX
          simp only [Option.isSome_some] at ihX
          simp only [hrec]
          simp [scanFlushComplete, ihX]

theorem assemble_emptyComplete (W : MWrite σ π ρ ω ε) :
    ∀ fuel (s : AssembleSt σ π),
      scanEmptyComplete s.buffered.isSome (assemblePoll W fuel s).2.2 =
        some (assemblePoll W fuel s).1.buffered.isSome := by
  intro fuel
  induction fuel with
  | zero => intro s; rfl
  | succ fuel ih =>
    intro s
    obtain ⟨w0, st, buf, term⟩ := s
    cases buf with
    | some it =>
      simp only [assemblePoll]
      rcases hr : W.poll_ready w0 with ⟨w, pr⟩
      cases pr with
      | pending =>
        rcases hf : W.poll_flush w with ⟨w', fr⟩
        cases fr with
        | pending => simp [hr, hf, scanEmptyComplete]
        | ready r =>
          cases r with
          | error e => simp [hr, hf, scanEmptyComplete]
          | ok u =>
            cases u
            rcases hrec : assemblePoll W fuel ⟨w', st, some it, term⟩ with ⟨s', r', tr⟩
            have ihX := ih ⟨w', st, some it, term⟩
            rw [hrec] at ihX
            simp only [Option.isSome_some] at ihX
            simp [hr, hf, hrec, scanEmptyComplete, ihX]
      | ready r =>
        cases r with
        | error e => simp [hr, scanEmptyComplete]
        | ok u =>
          cases u
          rcases hsend : W.start_send w it with ⟨w', sr⟩
          cases sr with
          | error e => simp [hr, hsend, scanEmptyComplete]
          | ok ret =>
            rcases hrec : assemblePoll W fuel ⟨w', st, none, term⟩ with ⟨s', r', tr⟩
            have ihX := ih ⟨w', st, none, term⟩
            rw [hrec] at ihX
            simp only [Option.isSome_none] at ihX
            simp [hr, hsend, hrec, scanEmptyComplete, ihX]
    | none =>
      simp only [assemblePoll]
      cases st with
      | none =>
        rcases hc : W.poll_complete w0 with ⟨w', cr⟩
        cases cr with
        | pending => simp [hc, scanEmptyComplete]
        | ready out => cases out <;> simp [hc, scanEmptyComplete]
      | some l =>
        cases l with
        | nil =>
          rcases hrec : assemblePoll W fuel ⟨w0, none, none, term⟩ with ⟨s', r', tr⟩
          have ihX := ih ⟨w0, none, none, term⟩
          rw [hrec] at ihX
          simp only [Option.isSome_none] at ihX
          simp [hrec, scanEmptyComplete, ihX]
        | cons p rest =>
          rcases hrec : assemblePoll W fuel ⟨w0, some rest, some p, term⟩ with ⟨s', r', tr⟩
          have ihX := ih ⟨w0, some rest, some p, term⟩
          rw [hrec] at ihX
          simp only [Option.isSome_some] at ihX
          simp [hrec, scanEmptyComplete, ihX]

/-- C6 (counterexample): `Assemble::poll` calls the writer's
`poll_complete` without first polling `poll_flush` to `Ready`: on the
empty Source with the recording writer its trace is
`[pullNone, completeOk]`, which the flush-before-complete discipline
rejects. -/
theorem c6_counterexample :
    (assembleRun []).2.2 = [.pullNone, .completeOk] ∧
    (scanFlushComplete false false (assembleRun []).2.2).isSome = false :=
  ⟨rfl, rfl⟩

/-- C6 (amended): `TrySend::poll_complete` and `CollectComplete::poll`
first send any buffered part and poll `poll_flush` to `Ready(Ok)`
immediately before every `poll_complete` call; `Assemble::poll`
guarantees only that the buffer slot is empty when `poll_complete` is
issued, performing no flush of its own. -/
theorem c6_flush_before_complete {σ π ρ ω ε : Type} (W : MWrite σ π ρ ω ε)
    (fuel : Nat) (s1 : TrySendSt σ π) (s2 : CollectCompleteSt σ π)
    (s3 : AssembleSt σ π) (fl : Bool) :
    (scanFlushComplete s1.buffered.isSome fl (trySendPollComplete W s1).2.2).isSome = true ∧
    (scanFlushComplete s2.buffered.isSome fl
      (collectCompletePoll W fuel s2).2.2).isSome = true ∧
    scanEmptyComplete s3.buffered.isSome (assemblePoll W fuel s3).2.2 =
      some ((assemblePoll W fuel s3).1.buffered.isSome) :=
  ⟨trySendPollComplete_flush W s1 fl, collectComplete_flush W fuel s2 fl,
    assemble_emptyComplete W fuel s3⟩

/-- C7 (counterexample): `CompleteWhen` never consults the writer's
`is_terminated`.  With a `TestWriter` whose `max_completed` is `0` —
terminated from the start — `CompleteWhen::poll_next` on the Source
`[1]` still pulls the source, sends the part, completes and yields the
Artifact `[1]`, instead of ending the stream with no further writer or
source operation. -/
theorem c7_counterexample :
    testWriterF.is_terminated ⟨[], 1, 0, some 0⟩ = true ∧
    completeWhenPollNext testWriter (fun _ => true) 8
        ⟨⟨some [1], ⟨[], 1, 0, some 0⟩, none, false⟩, false, false⟩ =
      (⟨⟨some [], ⟨[], 1, 1, some 0⟩, none, false⟩, false, false⟩,
        .ready (some (.ok [1])),
        [.pullSome 1, .readyOk, .send 1, .flushOk, .completeOk]) :=
  ⟨rfl, rfl⟩

/-- C7 (amended): `FeedMultipartWrite` checks the fused writer before
every transition: whenever `is_terminated()` is true, one poll ends the
stream immediately with an empty event trace (no writer or source
operation, any buffered part discarded unsent), and driving the stream
yields no further Artifact even if Source input remains. -/
theorem c7_fused_stop {σ π ρ ω ε : Type} (W : FusedMWrite σ π ρ ω ε) (f : ρ → Bool)
    (fuel ofuel : Nat) (s : FeedSt σ π) (h : W.is_terminated s.writer.inner = true)
    (h1 : 1 ≤ fuel) (h2 : 1 ≤ ofuel) :
    feedPollNext W f fuel s = ({ s with is_terminated := true }, .ready none, []) ∧
    driveStream (fun s => feedPollNext W f fuel s) ofuel s = ([], [], true) := by
  obtain ⟨f1, rfl⟩ : ∃ x, fuel = x + 1 := ⟨fuel - 1, by omega⟩
  obtain ⟨o1, rfl⟩ : ∃ x, ofuel = x + 1 := ⟨ofuel - 1, by omega⟩
  constructor
  · simp [feedPollNext, h]
  · simp [driveStream, feedPollNext, h]

/-- C7 witness: a `TestWriter` with `max_completed = 0` is terminated
from the start, and `FeedMultipartWrite` on Source `[5]` ends at once. -/
theorem c7_fused_stop_witness :
    (testWriterF.is_terminated
        ((feedInit [5] (⟨[], 1, 0, some 0⟩ : TestWriterSt)).writer.inner) = true ∧
      1 ≤ 1) ∧
    feedPollNext testWriterF (fun _ => true) 1 (feedInit [5] ⟨[], 1, 0, some 0⟩) =
      (⟨[5], ⟨⟨[], 1, 0, some 0⟩, none, false⟩, .write, false, true⟩, .ready none, []) ∧
    driveStream (fun s => feedPollNext testWriterF (fun _ => true) 1 s) 1
      (feedInit [5] ⟨[], 1, 0, some 0⟩) = ([], [], true) :=
  ⟨⟨rfl, le_rfl⟩,
    c7_fused_stop testWriterF (fun _ => true) 1 1 (feedInit [5] ⟨[], 1, 0, some 0⟩)
      rfl le_rfl le_rfl⟩

/-- C8 (counterexample): a failed `poll_complete` does not leave
`FeedMultipartWrite` in the `Write` state.  With an `Extend` writer in
its unset state (wrapped in `Fuse` to provide `is_terminated`),
`poll_complete` fails; the engine emits the error once and remains in
`Complete`, not `Write`. -/
theorem c8_counterexample :
    feedPollNext (fuseWF (extendW Nat) (fun _ => false)) (fun _ => false) 1
        ⟨[], ⟨⟨none, false⟩, none, false⟩, .complete, false, false⟩ =
      (⟨[], ⟨⟨none, false⟩, none, false⟩, .complete, false, false⟩,
        .ready (some (.error "unset")), [.completeErr]) ∧
    FeedState.complete ≠ FeedState.write :=
  ⟨rfl, by simp⟩

/-- C8 (amended): a writer failure is emitted as the next stream item,
exactly one error item per failed operation, with no retry within the
poll: in `FeedMultipartWrite`, a `poll_ready` or `start_send` failure
while sending leaves the engine in `Write` (the caller may keep driving
it), while a `poll_complete` failure leaves it in `Complete`; and
`CompleteWhen` passes an inner `TrySend` error through unchanged as the
next item. -/
theorem c8_error_emission {σ σc π ρ ρc ω ωc ε εc : Type} (W : FusedMWrite σ π ρ ω ε)
    (f : ρ → Bool) (fuel : Nat) (st : List π) (w0 w1 w2 : σ) (p : π) (ie strm : Bool)
    (e : ε) (b : Option π) (Wc : MWrite σc π ρc ωc εc) (pol : ρc → Bool)
    (ts ts' : TrySendSt σc π) (trc : List (Ev π)) (ec : εc) :
    (W.is_terminated w0 = false → W.poll_ready w0 = (w1, .ready (.error e)) →
      feedPollNext W f (fuel + 1) ⟨st, ⟨w0, some p, ie⟩, .write, strm, false⟩ =
        (⟨st, ⟨w1, some p, ie⟩, .write, strm, false⟩,
          .ready (some (.error e)), [.readyErr])) ∧
    (W.is_terminated w0 = false → W.poll_ready w0 = (w1, .ready (.ok ())) →
      W.start_send w1 p = (w2, .error e) →
      feedPollNext W f (fuel + 1) ⟨st, ⟨w0, some p, ie⟩, .write, strm, false⟩ =
        (⟨st, ⟨w2, none, ie⟩, .write, strm, false⟩,
          .ready (some (.error e)), [.readyOk, .send p])) ∧
    (W.is_terminated w0 = false → W.poll_complete w0 = (w1, .ready (.error e)) →
      feedPollNext W f (fuel + 1) ⟨st, ⟨w0, b, ie⟩, .complete, strm, false⟩ =
        (⟨st, ⟨w1, b, ie⟩, .complete, strm, false⟩,
          .ready (some (.error e)), [.completeErr])) ∧
    (trySendPollNext Wc fuel ts = (ts', .ready (some (.error ec)), trc) →
      completeWhenPollNext Wc pol (fuel + 1) ⟨ts, false, false⟩ =
        (⟨ts', false, false⟩, .ready (some (.error ec)), trc)) := by
  refine ⟨?_, ?_, ?_, ?_⟩
  · intro hT hr
    simp [feedPollNext, hT, wbPollInnerSend, hr]
  · intro hT hr hsd
    simp [feedPollNext, hT, wbPollInnerSend, hr, hsd]
  · intro hT hc
    simp [feedPollNext, hT, wbPollInnerComplete, hc]
  · intro hts
    simp [completeWhenPollNext, hts]

/-- C8 witness: instantiated with the unset `Extend` writer (whose
`start_send` and `poll_complete` fail) for the `FeedMultipartWrite`
clauses and with a buffered `TrySend` over the same writer for the
`CompleteWhen` clause. -/
theorem c8_error_emission_witness :
    (feedPollNext (fuseWF (extendW Nat) (fun _ => false)) (fun _ => false) 1
        ⟨[], ⟨⟨none, false⟩, some 2, false⟩, .write, false, false⟩ =
      (⟨[], ⟨⟨none, false⟩, none, false⟩, .write, false, false⟩,
        .ready (some (.error "unset")), [.readyOk, .send 2])) ∧
    (feedPollNext (fuseWF (extendW Nat) (fun _ => false)) (fun _ => false) 1
        ⟨[], ⟨⟨none, false⟩, none, false⟩, .complete, false, false⟩ =
      (⟨[], ⟨⟨none, false⟩, none, false⟩, .complete, false, false⟩,
        .ready (some (.error "unset")), [.completeErr])) ∧
    (completeWhenPollNext (extendW Nat) (fun _ => true) 2
        ⟨⟨some [], none, some 2, false⟩, false, false⟩ =
      (⟨⟨some [], none, none, false⟩, false, false⟩,
        .ready (some (.error "unset")), [.readyOk, .send 2])) :=
  ⟨(c8_error_emission (fuseWF (extendW Nat) (fun _ => false)) (fun _ => false) 0 []
      ⟨none, false⟩ ⟨none, false⟩ ⟨none, false⟩ 2 false false "unset" none
      (extendW Nat) (fun _ => true) ⟨some [], none, some 2, false⟩
      ⟨some [], none, none, false⟩ [.readyOk, .send 2] "unset").2.1 rfl rfl rfl,
    (c8_error_emission (fuseWF (extendW Nat) (fun _ => false)) (fun _ => false) 0 []
      ⟨none, false⟩ ⟨none, false⟩ ⟨none, false⟩ 2 false false "unset" none
      (extendW Nat) (fun _ => true) ⟨some [], none, some 2, false⟩
      ⟨some [], none, none, false⟩ [.readyOk, .send 2] "unset").2.2.1 rfl rfl,
    (c8_error_emission (fuseWF (extendW Nat) (fun _ => false)) (fun _ => false) 1 []
      ⟨none, false⟩ ⟨none, false⟩ ⟨none, false⟩ 2 false false "unset" none
      (extendW Nat) (fun _ => true) ⟨some [], none, some 2, false⟩
      ⟨some [], none, none, false⟩ [.readyOk, .send 2] "unset").2.2.2 rfl⟩

/-- Feed a list of parts into `MultiIoWriter` by repeated `start_send`. -/
def multiIoSendAll (s : List Nat) (ps : List (List Nat)) : List Nat :=
  ps.foldl (fun st p => (multiIoWriter.start_send st p).1) s

theorem multiIoSendAll_eq (ps : List (List Nat)) :
    ∀ s, multiIoSendAll s ps = s ++ ps.flatten := by
  induction ps with
  | nil => intro s; simp [multiIoSendAll]
  | cons p t ih =>
    intro s
    simp only [multiIoSendAll, List.foldl_cons] at *
    rw [ih (multiIoWriter.start_send s p).1]
    simp [multiIoWriter]

/-- C9 (counterexample): `Extend::poll_complete` takes the inner
collection out, leaving the unset state: completing a session holding
`[1]` succeeds, but a subsequent `start_send` fails with the "unset"
error instead of accumulating into a fresh session. -/
theorem c9_counterexample :
    (extendW Nat).poll_complete (some [1]) = (none, .ready (.ok [1])) ∧
    ((extendW Nat).start_send none 2).2 = .error "unset" :=
  ⟨rfl, rfl⟩

/-- C9 (amended): after a successful `poll_complete`, `MultiIoWriter`
(via `mem::take`) is reset to the default empty state and immediately
accepts a new session — `poll_ready` returns `Ready(Ok)`, sends succeed,
and the next completion yields exactly the new session's parts.
`Extend`, by contrast, is left unset: its `poll_ready` still returns
`Ready(Ok)`, but `start_send` and `poll_complete` fail until the writer
is rebuilt. -/
theorem c9_session_reset (s : List Nat) (ps : List (List Nat)) (p : Nat) :
    multiIoWriter.poll_complete s = ([], .ready (.ok s)) ∧
    multiIoWriter.poll_ready [] = ([], .ready (.ok ())) ∧
    (multiIoWriter.poll_complete (multiIoSendAll [] ps)).2 =
      .ready (.ok ps.flatten) ∧
    (extendW Nat).poll_ready none = (none, .ready (.ok ())) ∧
    (extendW Nat).start_send none p = (none, .error "unset") ∧
    (extendW Nat).poll_complete none = (none, .ready (.error "unset")) := by
  refine ⟨rfl, rfl, ?_, rfl, rfl, rfl⟩
  rw [multiIoSendAll_eq ps []]
  simp [multiIoWriter]

/-- C10: the `Fuse` combinator's flag is set exactly by a completed
output on which the predicate holds and is never unset; once set, every
operation is a successful no-op that does not touch the inner writer:
`poll_ready`/`poll_flush` return `Ready(Ok(()))`, `start_send` discards
the part and returns `Ok(None)`, and `poll_complete` returns
`Ready(Ok(None))`. -/
theorem c10_fuse_noop {σ π ρ ω ε : Type} (W : MWrite σ π ρ ω ε) (f : ω → Bool)
    (s : FuseSt σ) (p : π) (w : σ) (res : ω) (e : ε) :
    ((fuseW W f).poll_ready s).1.is_terminated = s.is_terminated ∧
    ((fuseW W f).start_send s p).1.is_terminated = s.is_terminated ∧
    ((fuseW W f).poll_flush s).1.is_terminated = s.is_terminated ∧
    (s.is_terminated = false → W.poll_complete s.writer = (w, .pending) →
      (fuseW W f).poll_complete s = ({ s with writer := w }, .pending)) ∧
    (s.is_terminated = false → W.poll_complete s.writer = (w, .ready (.error e)) →
      (fuseW W f).poll_complete s = ({ s with writer := w }, .ready (.error e))) ∧
    (s.is_terminated = false → W.poll_complete s.writer = (w, .ready (.ok res)) →
      (fuseW W f).poll_complete s =
        ({ s with writer := w, is_terminated := f res }, .ready (.ok (some res)))) ∧
    (s.is_terminated = true →
      (fuseW W f).poll_ready s = (s, .ready (.ok ())) ∧
      (fuseW W f).start_send s p = (s, .ok none) ∧
      (fuseW W f).poll_flush s = (s, .ready (.ok ())) ∧
      (fuseW W f).poll_complete s = (s, .ready (.ok none))) := by
  obtain ⟨w0, term⟩ := s
  cases term with
  | true =>
    refine ⟨rfl, rfl, rfl, ?_, ?_, ?_, ?_⟩
    · intro h; exact absurd h (by simp)
    · intro h; exact absurd h (by simp)
    · intro h; exact absurd h (by simp)
    · intro _; exact ⟨rfl, rfl, rfl, rfl⟩
  | false =>
    refine ⟨?_, ?_, ?_, ?_, ?_, ?_, ?_⟩
    · rcases hr : W.poll_ready w0 with ⟨w', r⟩
      simp [fuseW, hr]
    · rcases hsd : W.start_send w0 p with ⟨w', r⟩
      cases r <;> simp [fuseW, hsd]
    · rcases hf : W.poll_flush w0 with ⟨w', r⟩
      simp [fuseW, hf]
    · intro _ hc; simp [fuseW, hc]
    · intro _ hc; simp [fuseW, hc]
    · intro _ hc; simp [fuseW, hc]
    · intro h; exact absurd h (by simp)

/-- C10 witness: `Fuse` over a fresh `TestWriter` with a predicate that
fires on the one-element output: completing the session `[3]` sets the
flag, and in the terminated state every operation is a no-op. -/
theorem c10_fuse_noop_witness :
    ((fuseW testWriter (fun out => out.length == 1)).poll_complete
        ⟨⟨[3], 1, 0, none⟩, false⟩ =
      (⟨⟨[], 1, 1, none⟩, true⟩, .ready (.ok (some [3])))) ∧
    ((fuseW testWriter (fun out => out.length == 1)).poll_ready
        ⟨⟨[], 1, 1, none⟩, true⟩ = (⟨⟨[], 1, 1, none⟩, true⟩, .ready (.ok ()))) ∧
    ((fuseW testWriter (fun out => out.length == 1)).start_send
        ⟨⟨[], 1, 1, none⟩, true⟩ 7 = (⟨⟨[], 1, 1, none⟩, true⟩, .ok none)) ∧
    ((fuseW testWriter (fun out => out.length == 1)).poll_complete
        ⟨⟨[], 1, 1, none⟩, true⟩ = (⟨⟨[], 1, 1, none⟩, true⟩, .ready (.ok none))) :=
  ⟨(c10_fuse_noop testWriter (fun out => out.length == 1) ⟨⟨[3], 1, 0, none⟩, false⟩ 7
      ⟨[], 1, 1, none⟩ [3] "e").2.2.2.2.2.1 rfl rfl,
    ((c10_fuse_noop testWriter (fun out => out.length == 1) ⟨⟨[], 1, 1, none⟩, true⟩ 7
      ⟨[], 1, 1, none⟩ [3] "e").2.2.2.2.2.2 rfl).1,
    ((c10_fuse_noop testWriter (fun out => out.length == 1) ⟨⟨[], 1, 1, none⟩, true⟩ 7
      ⟨[], 1, 1, none⟩ [3] "e").2.2.2.2.2.2 rfl).2.1,
    ((c10_fuse_noop testWriter (fun out => out.length == 1) ⟨⟨[], 1, 1, none⟩, true⟩ 7
      ⟨[], 1, 1, none⟩ [3] "e").2.2.2.2.2.2 rfl).2.2.2⟩

end Multipart
